import Mathlib

/-!
Verification development for the native pooling kernels of the xchainer
repository (`xchainer/native/native_device/pool.cc`): max pooling
(forward, backward, double backward) and average pooling (forward in the
two padding modes, unimplemented backward).

Tensors are embedded shallowly as functions from full index lists
(`batch :: channel :: spatial…`) to values; machine integers become `ℤ`
and the floating dtype of average pooling becomes `ℚ`.  The window
transform (`Im2Col` / `Col2Im`), the reductions (`Max` / `ArgMax`), the
scatter (`AddAt`), the gather (`Take`) and the outer product
(`TensorDot`) live outside this file's source and are modelled from the
specification, as documented on each definition.
-/

namespace PoolSpec

/-- Product of a list of dimension sizes (total size of a shape). -/
def prodL (l : List ℕ) : ℕ := l.foldr (· * ·) 1

@[simp] theorem prodL_nil : prodL [] = 1 := rfl

@[simp] theorem prodL_cons (d : ℕ) (ds : List ℕ) : prodL (d :: ds) = d * prodL ds := rfl

theorem prodL_append (l₁ l₂ : List ℕ) : prodL (l₁ ++ l₂) = prodL l₁ * prodL l₂ := by
  induction l₁ with
  | nil => simp
  | cons d ds ih => simp [ih, Nat.mul_assoc]

/-- Row-major flat index of a multi-index `ix` within a shape `sh`. -/
def flatIdx : List ℕ → List ℕ → ℕ
  | _ :: ds, i :: is => i * prodL ds + flatIdx ds is
  | _, _ => 0

@[simp] theorem flatIdx_nil (ix : List ℕ) : flatIdx [] ix = 0 := rfl

@[simp] theorem flatIdx_cons (d : ℕ) (ds : List ℕ) (i : ℕ) (is : List ℕ) :
    flatIdx (d :: ds) (i :: is) = i * prodL ds + flatIdx ds is := rfl

/-- Row-major multi-index of a flat position `q` within a shape `sh`. -/
def unflattenIdx : List ℕ → ℕ → List ℕ
  | [], _ => []
  | _ :: ds, q => q / prodL ds :: unflattenIdx ds (q % prodL ds)

/-- `validIdx sh ix` holds when `ix` is a multi-index inside the shape `sh`. -/
def validIdx : List ℕ → List ℕ → Bool
  | [], [] => true
  | d :: ds, i :: is => decide (i < d) && validIdx ds is
  | _, _ => false

/-- Row-major enumeration of every multi-index of a shape. -/
def allIdx : List ℕ → List (List ℕ)
  | [] => [[]]
  | d :: ds => (List.range d).flatMap fun i => (allIdx ds).map (i :: ·)

@[simp] theorem allIdx_nil : allIdx [] = [[]] := rfl

theorem allIdx_cons (d : ℕ) (ds : List ℕ) :
    allIdx (d :: ds) = (List.range d).flatMap fun i => (allIdx ds).map (i :: ·) := rfl

theorem mem_allIdx {sh ix : List ℕ} : ix ∈ allIdx sh ↔ validIdx sh ix = true := by
  induction sh generalizing ix with
  | nil =>
    cases ix with
    | nil => simp [validIdx]
    | cons i is => simp [validIdx]
  | cons d ds ih =>
    cases ix with
    | nil =>
      simp only [allIdx_cons, List.mem_flatMap, List.mem_map, List.mem_range, validIdx]
      constructor
      · rintro ⟨i, _, ix', _, h⟩; cases h
      · intro h; cases h
    | cons i is =>
      simp only [allIdx_cons, List.mem_flatMap, List.mem_map, List.mem_range, validIdx,
        Bool.and_eq_true, decide_eq_true_eq]
      constructor
      · rintro ⟨j, hj, ix', hix', heq⟩
        cases heq
        exact ⟨hj, ih.mp hix'⟩
      · rintro ⟨hi, his⟩
        exact ⟨i, hi, is, ih.mpr his, rfl⟩

theorem allIdx_length (sh : List ℕ) : (allIdx sh).length = prodL sh := by
  induction sh with
  | nil => rfl
  | cons d ds ih =>
    rw [allIdx_cons, List.length_flatMap]
    rw [show (List.length ∘ fun i => (allIdx ds).map (i :: ·)) = fun _ : ℕ => prodL ds from
      funext fun i => by simp [ih]]
    simp [List.map_const', List.sum_replicate, smul_eq_mul]

theorem flatIdx_lt {sh ix : List ℕ} (h : validIdx sh ix = true) :
    flatIdx sh ix < prodL sh := by
  induction sh generalizing ix with
  | nil =>
    cases ix with
    | nil => simp
    | cons i is => simp [validIdx] at h
  | cons d ds ih =>
    cases ix with
    | nil => simp [validIdx] at h
    | cons i is =>
      simp only [validIdx, Bool.and_eq_true, decide_eq_true_eq] at h
      have h2 := ih h.2
      have h1 : i + 1 ≤ d := h.1
      calc i * prodL ds + flatIdx ds is < i * prodL ds + prodL ds := by omega
        _ = (i + 1) * prodL ds := by ring
        _ ≤ d * prodL ds := Nat.mul_le_mul_right _ h1

theorem validIdx_length {sh ix : List ℕ} (h : validIdx sh ix = true) :
    ix.length = sh.length := by
  induction sh generalizing ix with
  | nil => cases ix with
    | nil => rfl
    | cons i is => simp [validIdx] at h
  | cons d ds ih =>
    cases ix with
    | nil => simp [validIdx] at h
    | cons i is =>
      simp only [validIdx, Bool.and_eq_true] at h
      simp [ih h.2]

theorem flatIdx_append {sh₁ ix₁ : List ℕ} (sh₂ ix₂ : List ℕ)
    (h : validIdx sh₁ ix₁ = true) :
    flatIdx (sh₁ ++ sh₂) (ix₁ ++ ix₂) =
      flatIdx sh₁ ix₁ * prodL sh₂ + flatIdx sh₂ ix₂ := by
  induction sh₁ generalizing ix₁ with
  | nil =>
    cases ix₁ with
    | nil => simp
    | cons i is => simp [validIdx] at h
  | cons d ds ih =>
    cases ix₁ with
    | nil => simp [validIdx] at h
    | cons i is =>
      simp only [validIdx, Bool.and_eq_true] at h
      simp only [List.cons_append, flatIdx_cons, ih h.2, prodL_append]
      ring

theorem unflattenIdx_mul_add {sh₁ : List ℕ} {ix₁ : List ℕ} (sh₂ : List ℕ) {t : ℕ}
    (h : validIdx sh₁ ix₁ = true) (ht : t < prodL sh₂) :
    unflattenIdx (sh₁ ++ sh₂) (flatIdx sh₁ ix₁ * prodL sh₂ + t) =
      ix₁ ++ unflattenIdx sh₂ t := by
  induction sh₁ generalizing ix₁ with
  | nil =>
    cases ix₁ with
    | nil => simp
    | cons i is => simp [validIdx] at h
  | cons d ds ih =>
    cases ix₁ with
    | nil => simp [validIdx] at h
    | cons i is =>
      simp only [validIdx, Bool.and_eq_true, decide_eq_true_eq] at h
      have hflt : flatIdx ds is < prodL ds := flatIdx_lt h.2
      have hrem : flatIdx ds is * prodL sh₂ + t < prodL (ds ++ sh₂) := by
        rw [prodL_append]
        calc flatIdx ds is * prodL sh₂ + t < flatIdx ds is * prodL sh₂ + prodL sh₂ := by omega
          _ = (flatIdx ds is + 1) * prodL sh₂ := by ring
          _ ≤ prodL ds * prodL sh₂ := Nat.mul_le_mul_right _ hflt
      have hpos : 0 < prodL (ds ++ sh₂) := lt_of_le_of_lt (Nat.zero_le _) hrem
      have key : (i * prodL ds + flatIdx ds is) * prodL sh₂ + t =
          (flatIdx ds is * prodL sh₂ + t) + prodL (ds ++ sh₂) * i := by
        rw [prodL_append]; ring
      have hdiv : ((flatIdx ds is * prodL sh₂ + t) + prodL (ds ++ sh₂) * i) /
          prodL (ds ++ sh₂) = i := by
        rw [Nat.add_mul_div_left _ _ hpos, Nat.div_eq_of_lt hrem, Nat.zero_add]
      have hmod : ((flatIdx ds is * prodL sh₂ + t) + prodL (ds ++ sh₂) * i) %
          prodL (ds ++ sh₂) = flatIdx ds is * prodL sh₂ + t := by
        rw [Nat.add_mul_mod_self_left, Nat.mod_eq_of_lt hrem]
      simp only [List.cons_append, flatIdx_cons, key, unflattenIdx, List.append_eq]
      rw [hdiv, hmod]
      simp [ih h.2]

theorem unflattenIdx_flatIdx {sh ix : List ℕ} (h : validIdx sh ix = true) :
    unflattenIdx sh (flatIdx sh ix) = ix := by
  have := @unflattenIdx_mul_add sh ix [] 0 h (by simp)
  simpa [unflattenIdx] using this

theorem flatIdx_injOn {sh ix₁ ix₂ : List ℕ} (h₁ : validIdx sh ix₁ = true)
    (h₂ : validIdx sh ix₂ = true) (heq : flatIdx sh ix₁ = flatIdx sh ix₂) :
    ix₁ = ix₂ := by
  have e1 := unflattenIdx_flatIdx h₁
  have e2 := unflattenIdx_flatIdx h₂
  rw [← e1, ← e2, heq]

theorem flatIdx_unflattenIdx {sh : List ℕ} {q : ℕ} (h : q < prodL sh) :
    flatIdx sh (unflattenIdx sh q) = q := by
  induction sh generalizing q with
  | nil =>
    simp only [prodL_nil] at h
    have hq : q = 0 := by omega
    subst hq; rfl
  | cons d ds ih =>
    have hds : 0 < prodL ds := by
      rcases Nat.eq_zero_or_pos (prodL ds) with h0 | h0
      · simp [prodL_cons, h0] at h
      · exact h0
    simp only [unflattenIdx, flatIdx_cons]
    rw [ih (Nat.mod_lt _ hds), Nat.mul_comm]
    exact Nat.div_add_mod q (prodL ds)

theorem validIdx_unflattenIdx {sh : List ℕ} {q : ℕ} (h : q < prodL sh) :
    validIdx sh (unflattenIdx sh q) = true := by
  induction sh generalizing q with
  | nil => rfl
  | cons d ds ih =>
    have hds : 0 < prodL ds := by
      rcases Nat.eq_zero_or_pos (prodL ds) with h0 | h0
      · simp [prodL_cons, h0] at h
      · exact h0
    simp only [unflattenIdx, validIdx, Bool.and_eq_true, decide_eq_true_eq]
    refine ⟨Nat.div_lt_of_lt_mul ?_, ih (Nat.mod_lt _ hds)⟩
    simpa [Nat.mul_comm] using h

/-- Maximum of a list of integers (`Array::Max` reduction; the empty case
never arises because kernel volumes are positive). Modelled from the spec:
reduce by maximum over the kernel axes. -/
def listMax : List ℤ → ℤ
  | [] => 0
  | a :: t => t.foldl max a

theorem listMax_cons (a : ℤ) (t : List ℤ) : listMax (a :: t) = t.foldl max a := rfl

theorem foldl_max_init_le (t : List ℤ) (a : ℤ) : a ≤ t.foldl max a := by
  induction t generalizing a with
  | nil => simp
  | cons b t ih => exact le_trans (le_max_left a b) (ih (max a b))

theorem foldl_max_mono (t : List ℤ) {a b : ℤ} (h : a ≤ b) :
    t.foldl max a ≤ t.foldl max b := by
  induction t generalizing a b with
  | nil => simpa
  | cons c t ih => exact ih (max_le_max h (le_refl c))

theorem foldl_max_comm (t : List ℤ) (a b : ℤ) :
    t.foldl max (max a b) = max a (t.foldl max b) := by
  induction t generalizing b with
  | nil => simp
  | cons c t ih =>
    simp only [List.foldl_cons, max_assoc]
    exact ih (max b c)

theorem listMax_cons_eq_max (a : ℤ) (t : List ℤ) (ht : t ≠ []) :
    listMax (a :: t) = max a (listMax t) := by
  cases t with
  | nil => cases ht rfl
  | cons b t =>
    show (b :: t).foldl max a = max a (t.foldl max b)
    simp only [List.foldl_cons]
    exact foldl_max_comm t a b

theorem le_listMax {l : List ℤ} {a : ℤ} (h : a ∈ l) : a ≤ listMax l := by
  induction l with
  | nil => cases h
  | cons b t ih =>
    cases t with
    | nil =>
      simp only [List.mem_singleton] at h
      simp [listMax, h]
    | cons c t' =>
      rw [listMax_cons_eq_max b (c :: t') (by simp)]
      rcases List.mem_cons.mp h with h | h
      · exact h ▸ le_max_left _ _
      · exact le_trans (ih h) (le_max_right _ _)

theorem listMax_mem {l : List ℤ} (h : l ≠ []) : listMax l ∈ l := by
  induction l with
  | nil => cases h rfl
  | cons a t ih =>
    cases t with
    | nil => simp [listMax]
    | cons b t' =>
      rw [listMax_cons_eq_max a (b :: t') (by simp)]
      rcases le_total a (listMax (b :: t')) with hle | hle
      · rw [max_eq_right hle]
        exact List.mem_cons_of_mem a (ih (by simp))
      · rw [max_eq_left hle]
        exact List.mem_cons_self a _

/-- Index of the first occurrence of the maximum in a list (`Array::ArgMax`
along the kernel axes). Modelled from the spec: argmax with ties broken by
first occurrence in axis-scan order. -/
def idxOfMax (l : List ℤ) : ℕ := l.indexOf (listMax l)

theorem idxOfMax_lt {l : List ℤ} (h : l ≠ []) : idxOfMax l < l.length :=
  List.indexOf_lt_length.mpr (listMax_mem h)

theorem getD_idxOfMax {l : List ℤ} (h : l ≠ []) : l.getD (idxOfMax l) 0 = listMax l := by
  have hlt := idxOfMax_lt h
  rw [List.getD_eq_getElem l 0 hlt]
  exact List.getElem_indexOf hlt

theorem getD_lt_idxOfMax {l : List ℤ} {j : ℕ} (hj : j < idxOfMax l) :
    l.getD j 0 ≠ listMax l := by
  unfold idxOfMax at hj
  induction l generalizing j with
  | nil => simp [List.indexOf] at hj
  | cons a t ih =>
    by_cases ha : a = listMax (a :: t)
    · rw [← ha, List.indexOf_cons_self] at hj
      omega
    · rw [List.indexOf_cons_ne _ (fun h' => ha h')] at hj
      cases j with
      | zero => simpa using ha
      | succ j' =>
        have hj' : j' < t.indexOf (listMax (a :: t)) := by omega
        have ht : t ≠ [] := by
          intro h0
          subst h0
          exact ha (by simp [listMax])
        have hcons := listMax_cons_eq_max a t ht
        have hmax : listMax (a :: t) = listMax t := by
          rcases max_cases a (listMax t) with ⟨he, _⟩ | ⟨he, _⟩
          · exact absurd (hcons.trans he).symm ha
          · rw [hcons, he]
        rw [hmax] at hj' ⊢
        simpa using ih hj'

/-- Scatter-with-accumulation into a flat buffer (`Device::AddAt` on a
one-dimensional array). Modelled from the spec: each update adds its value
at its flat position, accumulating rather than overwriting. -/
def scatterAdd (buf : ℕ → ℤ) (upds : List (ℕ × ℤ)) : ℕ → ℤ :=
  upds.foldl (fun b u => Function.update b u.1 (b u.1 + u.2)) buf

theorem scatterAdd_nil (buf : ℕ → ℤ) : scatterAdd buf [] = buf := rfl

theorem scatterAdd_cons (buf : ℕ → ℤ) (u : ℕ × ℤ) (t : List (ℕ × ℤ)) :
    scatterAdd buf (u :: t) = scatterAdd (Function.update buf u.1 (buf u.1 + u.2)) t := rfl

theorem scatterAdd_apply (buf : ℕ → ℤ) (upds : List (ℕ × ℤ)) (p : ℕ) :
    scatterAdd buf upds p = buf p + ((upds.filter (fun u => u.1 = p)).map (·.2)).sum := by
  induction upds generalizing buf with
  | nil => simp [scatterAdd_nil]
  | cons u t ih =>
    rw [scatterAdd_cons, ih]
    by_cases hp : u.1 = p
    · subst hp
      simp [Function.update_same, List.filter_cons, add_assoc]
    · simp [Function.update_noteq (Ne.symm hp), List.filter_cons, hp]

/-- Sum of the values of a function over a list of indices. -/
def sumOver (l : List (List ℕ)) (f : List ℕ → ℤ) : ℤ := (l.map f).sum

theorem sumOver_nil (f : List ℕ → ℤ) : sumOver [] f = 0 := rfl

theorem sumOver_cons (a : List ℕ) (l : List (List ℕ)) (f : List ℕ → ℤ) :
    sumOver (a :: l) f = f a + sumOver l f := by
  simp [sumOver]

theorem sumOver_congr {l : List (List ℕ)} {f g : List ℕ → ℤ}
    (h : ∀ a ∈ l, f a = g a) : sumOver l f = sumOver l g := by
  induction l with
  | nil => rfl
  | cons a t ih =>
    rw [sumOver_cons, sumOver_cons, h a (List.mem_cons_self a t),
      ih fun b hb => h b (List.mem_cons_of_mem a hb)]

theorem sumOver_add (l : List (List ℕ)) (f g : List ℕ → ℤ) :
    sumOver l (fun a => f a + g a) = sumOver l f + sumOver l g := by
  induction l with
  | nil => rfl
  | cons a t ih =>
    simp only [sumOver_cons, ih]
    ring

theorem sumOver_zero (l : List (List ℕ)) : sumOver l (fun _ => 0) = 0 := by
  induction l with
  | nil => rfl
  | cons a t ih => simp [sumOver_cons, ih]

theorem sumOver_swap (l₁ l₂ : List (List ℕ)) (g : List ℕ → List ℕ → ℤ) :
    sumOver l₁ (fun a => sumOver l₂ (g a)) =
      sumOver l₂ (fun b => sumOver l₁ (fun a => g a b)) := by
  induction l₁ with
  | nil => simp [sumOver_nil, sumOver_zero]
  | cons a t ih =>
    rw [sumOver_cons, ih, ← sumOver_add]
    exact sumOver_congr fun b _ => (sumOver_cons a t fun a' => g a' b).symm

theorem sumOver_append (l₁ l₂ : List (List ℕ)) (f : List ℕ → ℤ) :
    sumOver (l₁ ++ l₂) f = sumOver l₁ f + sumOver l₂ f := by
  simp [sumOver, List.map_append, List.sum_append]

theorem sumOver_map_cons (i : ℕ) (l : List (List ℕ)) (f : List ℕ → ℤ) :
    sumOver (l.map (i :: ·)) f = sumOver l fun ix => f (i :: ix) := by
  simp only [sumOver, List.map_map]
  rfl

theorem sumOver_allIdx_cons (d : ℕ) (ds : List ℕ) (f : List ℕ → ℤ) :
    sumOver (allIdx (d :: ds)) f =
      ((List.range d).map fun i => sumOver (allIdx ds) fun ix => f (i :: ix)).sum := by
  rw [allIdx_cons]
  induction List.range d with
  | nil => rfl
  | cons i t ih =>
    rw [List.flatMap_cons, sumOver_append, sumOver_map_cons, List.map_cons,
      List.sum_cons, ih]

theorem sum_range_if_eq (d i₀ : ℕ) (v : ℤ) (h : i₀ < d) :
    ((List.range d).map fun i => if i = i₀ then v else 0).sum = v := by
  induction d with
  | zero => omega
  | succ d ih =>
    rw [List.range_succ]
    rcases Nat.lt_or_ge i₀ d with h' | h'
    · have hne : ¬(d = i₀) := by omega
      simp [ih h', hne]
    · have he : i₀ = d := by omega
      subst he
      have : ∀ i ∈ List.range i₀, (if i = i₀ then v else 0) = 0 := by
        intro i hi
        simp only [List.mem_range] at hi
        simp [Nat.ne_of_lt hi]
      rw [List.map_append, List.sum_append, List.map_congr_left this]
      simp

theorem sumOver_allIdx_if_eq {sh c₀ : List ℕ} (v : ℤ) (h : validIdx sh c₀ = true) :
    sumOver (allIdx sh) (fun cs => if cs = c₀ then v else 0) = v := by
  induction sh generalizing c₀ with
  | nil =>
    cases c₀ with
    | nil => simp [sumOver, allIdx_nil]
    | cons i is => simp [validIdx] at h
  | cons d ds ih =>
    cases c₀ with
    | nil => simp [validIdx] at h
    | cons i₀ is₀ =>
      simp only [validIdx, Bool.and_eq_true, decide_eq_true_eq] at h
      rw [sumOver_allIdx_cons]
      have inner : ∀ i, (sumOver (allIdx ds) fun ix =>
          if i :: ix = i₀ :: is₀ then v else 0) = if i = i₀ then v else 0 := by
        intro i
        by_cases hi : i = i₀
        · subst hi
          rw [if_pos rfl]
          rw [show (fun ix => if i :: ix = i :: is₀ then v else (0 : ℤ)) =
            fun ix => if ix = is₀ then v else 0 from funext fun ix => by simp]
          exact ih h.2
        · rw [if_neg hi]
          rw [show (fun ix => if i :: ix = i₀ :: is₀ then v else (0 : ℤ)) =
            fun _ => 0 from funext fun ix => by simp [hi]]
          exact sumOver_zero _
      rw [show (fun i => sumOver (allIdx ds) fun ix => if i :: ix = i₀ :: is₀ then v else 0) =
        fun i => if i = i₀ then v else 0 from funext inner]
      exact sum_range_if_eq d i₀ v h.1

theorem unflattenIdx_cons_mul_add (d : ℕ) (ds : List ℕ) (i r : ℕ)
    (hr : r < prodL ds) :
    unflattenIdx (d :: ds) (i * prodL ds + r) = i :: unflattenIdx ds r := by
  have hP : 0 < prodL ds := lt_of_le_of_lt (Nat.zero_le _) hr
  have h1 : i * prodL ds + r = r + prodL ds * i := by ring
  simp only [unflattenIdx, h1]
  rw [Nat.add_mul_div_left _ _ hP, Nat.div_eq_of_lt hr, Nat.zero_add,
    Nat.add_mul_mod_self_left, Nat.mod_eq_of_lt hr]

theorem flatMap_congr_mem {α β : Type _} {l : List α} {f g : α → List β}
    (h : ∀ a ∈ l, f a = g a) : l.flatMap f = l.flatMap g := by
  induction l with
  | nil => rfl
  | cons a t ih =>
    simp only [List.flatMap_cons, h a (List.mem_cons_self a t),
      ih fun b hb => h b (List.mem_cons_of_mem a hb)]

theorem range_mul_flatMap (d P : ℕ) :
    List.range (d * P) = (List.range d).flatMap fun i => (List.range P).map (i * P + ·) := by
  induction d with
  | zero => simp
  | succ d ih =>
    rw [Nat.succ_mul, List.range_add, ih, List.range_succ, List.flatMap_append]
    simp

theorem allIdx_eq_map_range (sh : List ℕ) :
    allIdx sh = (List.range (prodL sh)).map (unflattenIdx sh) := by
  induction sh with
  | nil => simp [allIdx_nil, unflattenIdx, List.range_succ]
  | cons d ds ih =>
    rw [allIdx_cons, prodL_cons, range_mul_flatMap d (prodL ds), List.map_flatMap]
    refine flatMap_congr_mem fun i _ => ?_
    rw [ih, List.map_map, List.map_map]
    refine List.map_congr_left fun r hr => ?_
    simp only [Function.comp_apply]
    exact (unflattenIdx_cons_mul_add d ds i r (List.mem_range.mp hr)).symm

theorem allIdx_getElem {sh : List ℕ} {q : ℕ} (h : q < (allIdx sh).length) :
    (allIdx sh).get ⟨q, h⟩ = unflattenIdx sh q := by
  rw [List.get_eq_getElem, List.getElem_of_eq (allIdx_eq_map_range sh) h]
  simp

theorem prodL_pos {ks : List ℕ} (h : ∀ k ∈ ks, 0 < k) : 0 < prodL ks := by
  induction ks with
  | nil => simp
  | cons k t ih =>
    rw [prodL_cons]
    exact Nat.mul_pos (h k (List.mem_cons_self k t)) (ih fun b hb => h b (List.mem_cons_of_mem k hb))

/-! ### Window transform -/

/-- Coordinate sampled along each spatial axis for output position `oo` and
kernel offset `kk`: `o*stride + k - pad`. Modelled from the spec: the window
transform's sampled input coordinate. -/
def sampleCoords : List ℕ → List ℕ → List ℕ → List ℕ → List ℤ
  | s :: ss, p :: ps, o :: os, k :: kks =>
    ((o : ℤ) * s + k - p) :: sampleCoords ss ps os kks
  | _, _, _, _ => []

/-- Whether every sampled coordinate lies inside the input spatial extent. -/
def coordsInBounds : List ℕ → List ℤ → Bool
  | d :: ds, c :: cs => decide (0 ≤ c) && decide (c < (d : ℤ)) && coordsInBounds ds cs
  | [], [] => true
  | _, _ => false

/-- In-bounds integer coordinates converted back to a natural multi-index. -/
def coordsToNat (cs : List ℤ) : List ℕ := cs.map Int.toNat

/-- Output size of one spatial axis:
`(d + 2*p - k)/s + 1`, plus one more when `cover_all` and the stride does not
evenly divide. Modelled from the spec: `GetConvOutDim` with the `cover_all`
rule (the repository's helper lives outside this file's source). -/
def getConvOutDim (d k s p : ℕ) (coverAll : Bool) : ℕ :=
  (d + 2 * p - k) / s + 1 + (if coverAll && decide ((d + 2 * p - k) % s ≠ 0) then 1 else 0)

/-- Output spatial shape across all axes. -/
def outDims : List ℕ → List ℕ → List ℕ → List ℕ → Bool → List ℕ
  | d :: ds, k :: kks, s :: ss, p :: ps, ca =>
    getConvOutDim d k s p ca :: outDims ds kks ss ps ca
  | _, _, _, _, _ => []

/-- Value of the columnar tensor produced by window extraction at batch `b`,
channel `c`, kernel offset `kk` and output position `oo`: the input value at
the sampled coordinate, or the fill value when the coordinate is out of
bounds. Modelled from the spec: `internal::Im2Col` (out-of-bounds positions
read as the fill value rather than being omitted). -/
def im2col {α : Type} (x : List ℕ → α) (ds ss ps : List ℕ) (fill : α)
    (b c : ℕ) (kk oo : List ℕ) : α :=
  let cs := sampleCoords ss ps oo kk
  if coordsInBounds ds cs then x (b :: c :: coordsToNat cs) else fill

/-- The columnar tensor of `im2col` as a function of a single full index in
the layout `(batch, channel, k_1..k_n, out_1..out_n)`, `n` = number of
spatial axes. -/
def im2colT {α : Type} (x : List ℕ → α) (ds ss ps : List ℕ) (fill : α)
    (n : ℕ) : List ℕ → α
  | b :: c :: rest => im2col x ds ss ps fill b c (rest.take n) (rest.drop n)
  | _ => fill

/-- The list of all window values of one output position, enumerated over the
kernel offsets in row-major scan order. -/
def windowVals {α : Type} (x : List ℕ → α) (ds ks ss ps : List ℕ) (fill : α)
    (b c : ℕ) (oo : List ℕ) : List α :=
  (allIdx ks).map fun kk => im2col x ds ss ps fill b c kk oo

/-- Transpose that swaps the two groups of `n` trailing spatial axes while
keeping batch and channel:
`(batch, channel, a_1..a_n, b_1..b_n) -> (batch, channel, b_1..b_n, a_1..a_n)`
(source: `GetSwapSpatialDimensionsAxes` together with `Array::Transpose`). -/
def swapSpatialDims {α : Type} (n : ℕ) (t : List ℕ → α) : List ℕ → α :=
  fun ix => t (ix.take 2 ++ (ix.drop 2).drop n ++ (ix.drop 2).take n)

/-- Adjoint of window extraction: every input position accumulates the
contributions of every window/kernel-offset pair that sampled it.  The input
tensor `colT` is in the columnar layout `(batch, channel, k_1..k_n,
out_1..out_n)`. Modelled from the spec: `internal::Col2Im` (window-scatter
with the given stride/pad and the target input spatial shape). -/
def col2im (colT : List ℕ → ℤ) (ks ss ps odims : List ℕ) : List ℕ → ℤ
  | b :: c :: cs =>
    sumOver (allIdx odims) fun oo =>
      sumOver (allIdx ks) fun kk =>
        if sampleCoords ss ps oo kk = cs.map (Int.ofNat) then colT (b :: c :: kk ++ oo)
        else 0
  | _ => 0

/-! ### Max pooling (`NativeMaxPoolForwardBackward`) -/

/-- `Forward`: window-extract with the dtype's lowest-or-negative-infinity
fill (`GetLowestOrInf`, passed here as the parameter `fill`) and reduce by
maximum over the kernel axes. -/
def maxPoolForward (x : List ℕ → ℤ) (ds ks ss ps : List ℕ) (fill : ℤ)
    (b c : ℕ) (oo : List ℕ) : ℤ :=
  listMax (windowVals x ds ks ss ps fill b c oo)

/-- Argmax of the cached columnar tensor along the kernel axes, as a flat
offset within the kernel axes (`col_.ArgMax(axes_)` in `Backward`). -/
def argMaxWindow (x : List ℕ → ℤ) (ds ks ss ps : List ℕ) (fill : ℤ)
    (b c : ℕ) (oo : List ℕ) : ℕ :=
  idxOfMax (windowVals x ds ks ss ps fill b c oo)

/-- `argMaxWindow` on a full output index `batch :: channel :: out…`. -/
def argMaxWindowAt (x : List ℕ → ℤ) (ds ks ss ps : List ℕ) (fill : ℤ) :
    List ℕ → ℕ
  | b :: c :: oo => argMaxWindow x ds ks ss ps fill b c oo
  | _ => 0

/-- `maxPoolForward` on a full output index `batch :: channel :: out…`. -/
def maxPoolForwardAt (x : List ℕ → ℤ) (ds ks ss ps : List ℕ) (fill : ℤ) :
    List ℕ → ℤ
  | b :: c :: oo => maxPoolForward x ds ks ss ps fill b c oo
  | _ => 0

/-- Full output shape `(batch, channel, out_1..out_n)`. -/
def outShape (Bd Cd : ℕ) (ds ks ss ps : List ℕ) (ca : Bool) : List ℕ :=
  Bd :: Cd :: outDims ds ks ss ps ca

/-- The scatter updates of `Backward`: for each flattened output position the
write lands at `argmax index + output position * kernel total size` and adds
the corresponding `gout` value (`device.AddAt` on `gcol` along axis 0 at
positions `indices_.Reshape(out_flat) + offset_` of values
`gout.Reshape(out_flat)`, with
`offset_ = Arange(0, out_total_size * kernel_total_size, kernel_total_size)`). -/
def mpScatterUpdates (x : List ℕ → ℤ) (ds ks ss ps : List ℕ) (fill : ℤ)
    (Bd Cd : ℕ) (ca : Bool) (gout : List ℕ → ℤ) : List (ℕ × ℤ) :=
  (allIdx (outShape Bd Cd ds ks ss ps ca)).map fun j =>
    (argMaxWindowAt x ds ks ss ps fill j +
      flatIdx (outShape Bd Cd ds ks ss ps ca) j * prodL ks, gout j)

/-- The flattened, zero-initialized gradient buffer of `Backward` after the
scatter-add (`gcol` in the source). -/
def mpGcolBuf (x : List ℕ → ℤ) (ds ks ss ps : List ℕ) (fill : ℤ)
    (Bd Cd : ℕ) (ca : Bool) (gout : List ℕ → ℤ) : ℕ → ℤ :=
  scatterAdd (fun _ => 0) (mpScatterUpdates x ds ks ss ps fill Bd Cd ca gout)

/-- The buffer reshaped to `(batch, channel, out_1..out_n, k_1..k_n)`
(`gcol.Reshape(out_shape_with_kernel)`). -/
def mpGcolReshaped (x : List ℕ → ℤ) (ds ks ss ps : List ℕ) (fill : ℤ)
    (Bd Cd : ℕ) (ca : Bool) (gout : List ℕ → ℤ) : List ℕ → ℤ :=
  fun ix => mpGcolBuf x ds ks ss ps fill Bd Cd ca gout
    (flatIdx (outShape Bd Cd ds ks ss ps ca ++ ks) ix)

/-- `Backward`: argmax, scatter-add into the flat buffer, reshape, permute to
the columnar layout and window-scatter back to the input shape
(`internal::Col2Im(gcol.Reshape(...).Transpose(GetSwapSpatialDimensionsAxes(n)),
stride_, pad_, input spatial shape)`). -/
def maxPoolBackward (x : List ℕ → ℤ) (ds ks ss ps : List ℕ) (fill : ℤ)
    (Bd Cd : ℕ) (ca : Bool) (gout : List ℕ → ℤ) : List ℕ → ℤ :=
  col2im (swapSpatialDims ks.length (mpGcolReshaped x ds ks ss ps fill Bd Cd ca gout))
    ks ss ps (outDims ds ks ss ps ca)

/-- `DoubleBackward`: window-extract `ggx` with the forward parameters,
permute to `(batch, channel, out…, k…)`, flatten, and gather at the cached
`index + offset` flat positions (`Take(col.Transpose(...).Reshape(total),
indices_ + offset_.Reshape(indices_.shape()), 0)`). -/
def maxPoolDoubleBackward (x ggx : List ℕ → ℤ) (ds ks ss ps : List ℕ)
    (fill : ℤ) (Bd Cd : ℕ) (ca : Bool) : List ℕ → ℤ :=
  fun j =>
    let flatT : ℕ → ℤ := fun q =>
      swapSpatialDims ks.length (im2colT ggx ds ss ps fill ks.length)
        (unflattenIdx (outShape Bd Cd ds ks ss ps ca ++ ks) q)
    flatT (argMaxWindowAt x ds ks ss ps fill j +
      flatIdx (outShape Bd Cd ds ks ss ps ca) j * prodL ks)

/-! ### Instance state of `NativeMaxPoolForwardBackward`

The C++ class caches `x_` (with its shape and dtype fill value) in `Forward`,
and `indices_` and `offset_` in `Backward`; `col_` is determined by `x_` and
the constructor parameters and is represented here through `x_`.  A
default-constructed (null) array is represented by `none`, and a method that
would have to use a null array returns `none`. -/

structure MaxPoolInstance where
  kernelSize : List ℕ
  stride : List ℕ
  pads : List ℕ
  coverAll : Bool
  xCache : Option ((ℕ × ℕ × List ℕ × ℤ) × (List ℕ → ℤ))
  indicesCache : Option (List ℕ → ℕ)
  offsetCache : Option (List ℕ → ℕ)

/-- A freshly constructed instance: parameters stored, every array member
default-constructed. -/
def MaxPoolInstance.mk0 (ks ss ps : List ℕ) (ca : Bool) : MaxPoolInstance :=
  ⟨ks, ss, ps, ca, none, none, none⟩

/-- `Forward`: caches the input (and its shape and fill), leaves `indices_`
and `offset_` untouched, and returns the max-reduced columnar tensor. -/
def instForward (m : MaxPoolInstance) (Bd Cd : ℕ) (ds : List ℕ) (fill : ℤ)
    (x : List ℕ → ℤ) : (List ℕ → ℤ) × MaxPoolInstance :=
  (maxPoolForwardAt x ds m.kernelSize m.stride m.pads fill,
    { m with xCache := some ((Bd, Cd, ds, fill), x) })

/-- `Backward`: requires a cached `col_`/`x_`; computes and caches `indices_`
and `offset_`, and returns the scattered input gradient. -/
def instBackward (m : MaxPoolInstance) (gout : List ℕ → ℤ) :
    Option ((List ℕ → ℤ) × MaxPoolInstance) :=
  match m.xCache with
  | none => none
  | some ((Bd, Cd, ds, fill), x) =>
    some (maxPoolBackward x ds m.kernelSize m.stride m.pads fill Bd Cd m.coverAll gout,
      { m with
        indicesCache := some (argMaxWindowAt x ds m.kernelSize m.stride m.pads fill),
        offsetCache := some fun j =>
          flatIdx (outShape Bd Cd ds m.kernelSize m.stride m.pads m.coverAll) j *
            prodL m.kernelSize })

/-- `DoubleBackward`: requires the cached `x_`, `indices_` and `offset_`;
window-extracts `ggx`, permutes, flattens, and gathers at the cached
`index + offset` positions. -/
def instDoubleBackward (m : MaxPoolInstance) (ggx : List ℕ → ℤ) :
    Option (List ℕ → ℤ) :=
  match m.xCache, m.indicesCache, m.offsetCache with
  | some ((Bd, Cd, ds, fill), _), some idxF, some offF =>
    some fun j =>
      swapSpatialDims m.kernelSize.length
        (im2colT ggx ds m.stride m.pads fill m.kernelSize.length)
        (unflattenIdx
          (outShape Bd Cd ds m.kernelSize m.stride m.pads m.coverAll ++ m.kernelSize)
          (idxF j + offF j))
  | _, _, _ => none

/-! ### Average pooling (`NativeAveragePoolForwardBackward`) -/

/-- Error conditions surfaced by the average-pool operator:
`NotImplementedError` for the unimplemented backward, and the fatal
`XCHAINER_NEVER_REACH` invariant violation for an unrecognized padding
mode. -/
inductive PoolError where
  | notImplemented
  | neverReached
deriving DecidableEq

/-- The two recognized values of `AveragePoolPadMode`, as the underlying
integer values of the C++ enum (`kZero` and `kIgnore`); any other integer is
an unrecognized mode. -/
def padModeZero : ℕ := 0

/-- See `padModeZero`. -/
def padModeIgnore : ℕ := 1

/-- Number of elements along the kernel axes of the columnar shape: the
nominal kernel volume. Modelled from the spec:
`xchainer::internal::CountItemsAlongAxes` applied to the kernel axes. -/
def countItemsAlongKernelAxes (ks : List ℕ) : ℕ := prodL ks

/-- Effective width of one output position along one spatial axis in
ignore-padding mode (`Impl::operator()` inside
`GetPadModeIgnorePoolingWidths`): the window extent clamped to the input,
computed in the array dtype (embedded as `ℚ`). -/
def poolingWidth (d k s p : ℕ) (i : ℕ) : ℚ :=
  let start : ℚ := (i : ℚ) * s - p
  let stop : ℚ := start + k
  let start' : ℚ := if start < 0 then 0 else start
  let stop' : ℚ := if stop > d then d else stop
  stop' - start'

/-- `GetPadModeIgnorePoolingWidths`: per-axis effective-width vectors
combined across the spatial axes by successive outer products
(the `TensorDot` outer-product step is modelled from the spec as
broadcast multiplication), giving the N-D effective-size tensor at spatial
output position `i_1..i_n`. -/
def padModeIgnoreWidths : List ℕ → List ℕ → List ℕ → List ℕ → List ℕ → ℚ
  | d :: ds, k :: kks, s :: ss, p :: ps, i :: is =>
    poolingWidth d k s p i * padModeIgnoreWidths ds kks ss ps is
  | _, _, _, _, _ => 1

/-- `Mean`: sum along the kernel axes divided by the number of items along
those axes (`device.Sum` followed by `device.DivideAS` with
`CountItemsAlongAxes`). -/
def meanOverKernel (x : List ℕ → ℚ) (ds ks ss ps : List ℕ) (b c : ℕ)
    (oo : List ℕ) : ℚ :=
  (windowVals x ds ks ss ps (0 : ℚ) b c oo).sum / (countItemsAlongKernelAxes ks : ℚ)

/-- `NativeAveragePoolForwardBackward::Forward`: window-extract with fill `0`
and `cover_all = false`, then switch on the padding mode — `kZero` divides
the window sum by the nominal kernel volume, `kIgnore` divides it by the
per-position effective width, and any other mode hits
`XCHAINER_NEVER_REACH`. -/
def avgPoolForward (x : List ℕ → ℚ) (ds ks ss ps : List ℕ) (padMode : ℕ) :
    Except PoolError (List ℕ → ℚ) :=
  match padMode with
  | 0 => .ok fun j =>
      match j with
      | b :: c :: oo => meanOverKernel x ds ks ss ps b c oo
      | _ => 0
  | 1 => .ok fun j =>
      match j with
      | b :: c :: oo =>
        (windowVals x ds ks ss ps (0 : ℚ) b c oo).sum / padModeIgnoreWidths ds ks ss ps oo
      | _ => 0
  | _ => .error .neverReached

/-- The const-only instance state of `NativeAveragePoolForwardBackward`: the
class has no mutable members. -/
structure AveragePoolInstance where
  kernelSize : List ℕ
  stride : List ℕ
  pads : List ℕ
  padMode : ℕ

/-- `Forward` on an average-pool instance. -/
def instAvgForward (m : AveragePoolInstance) (ds : List ℕ) (x : List ℕ → ℚ) :
    Except PoolError (List ℕ → ℚ) :=
  avgPoolForward x ds m.kernelSize m.stride m.pads m.padMode

/-- `NativeAveragePoolForwardBackward::Backward`: throws
`NotImplementedError` before touching anything. -/
def instAvgBackward (m : AveragePoolInstance) (gout : List ℕ → ℚ) :
    Except PoolError ((List ℕ → ℚ) × AveragePoolInstance) :=
  .error .notImplemented

/-! ### Supporting lemmas about windows and the backward buffer -/

theorem windowVals_length {α : Type} (x : List ℕ → α) (ds ks ss ps : List ℕ)
    (fill : α) (b c : ℕ) (oo : List ℕ) :
    (windowVals x ds ks ss ps fill b c oo).length = prodL ks := by
  simp [windowVals, allIdx_length]

theorem windowVals_getD (x : List ℕ → ℤ) (ds ks ss ps : List ℕ) (fill : ℤ)
    (b c : ℕ) (oo : List ℕ) {q : ℕ} (hq : q < prodL ks) :
    (windowVals x ds ks ss ps fill b c oo).getD q 0 =
      im2col x ds ss ps fill b c (unflattenIdx ks q) oo := by
  have hlen : q < (windowVals x ds ks ss ps fill b c oo).length := by
    rw [windowVals_length]; exact hq
  rw [List.getD_eq_getElem _ _ hlen]
  have h2 : q < (allIdx ks).length := by rw [allIdx_length]; exact hq
  have h3 := allIdx_getElem h2
  rw [List.get_eq_getElem] at h3
  simp only [windowVals, List.getElem_map, h3]

theorem argMaxWindow_lt (x : List ℕ → ℤ) (ds ks ss ps : List ℕ) (fill : ℤ)
    (b c : ℕ) (oo : List ℕ) (hK : 0 < prodL ks) :
    argMaxWindow x ds ks ss ps fill b c oo < prodL ks := by
  have hne : windowVals x ds ks ss ps fill b c oo ≠ [] := by
    intro h
    have := windowVals_length x ds ks ss ps fill b c oo
    rw [h] at this
    simp at this
    omega
  have := idxOfMax_lt hne
  rwa [windowVals_length] at this

theorem argMaxWindowAt_lt (x : List ℕ → ℤ) (ds ks ss ps : List ℕ) (fill : ℤ)
    (j : List ℕ) (hK : 0 < prodL ks) :
    argMaxWindowAt x ds ks ss ps fill j < prodL ks := by
  match j with
  | [] => exact hK
  | [b] => exact hK
  | b :: c :: oo => exact argMaxWindow_lt x ds ks ss ps fill b c oo hK

theorem slice_pos_inj {K a b f g : ℕ} (hK : 0 < K) (ha : a < K) (hb : b < K)
    (h : a + f * K = b + g * K) : a = b ∧ f = g := by
  have hmod : a = b := by
    have h1 : (a + f * K) % K = a := by
      rw [Nat.add_mul_mod_self_right, Nat.mod_eq_of_lt ha]
    have h2 : (b + g * K) % K = b := by
      rw [Nat.add_mul_mod_self_right, Nat.mod_eq_of_lt hb]
    rw [← h1, ← h2, h]
  refine ⟨hmod, ?_⟩
  subst hmod
  have : f * K = g * K := by omega
  exact Nat.eq_of_mul_eq_mul_right hK this

theorem scatterAdd_map_apply (l : List (List ℕ)) (pos : List ℕ → ℕ)
    (val : List ℕ → ℤ) (p : ℕ) :
    scatterAdd (fun _ => 0) (l.map fun j => (pos j, val j)) p =
      sumOver l fun j => if pos j = p then val j else 0 := by
  rw [scatterAdd_apply, zero_add]
  induction l with
  | nil => rfl
  | cons a t ih =>
    simp only [List.map_cons, List.filter_cons, sumOver_cons, ← ih]
    by_cases h : pos a = p
    · simp [h]
    · simp [h]

theorem mpGcolBuf_slice (x : List ℕ → ℤ) (ds ks ss ps : List ℕ) (fill : ℤ)
    (Bd Cd : ℕ) (ca : Bool) (gout : List ℕ → ℤ) {j : List ℕ} {t : ℕ}
    (hj : j ∈ allIdx (outShape Bd Cd ds ks ss ps ca)) (ht : t < prodL ks) :
    mpGcolBuf x ds ks ss ps fill Bd Cd ca gout
        (t + flatIdx (outShape Bd Cd ds ks ss ps ca) j * prodL ks) =
      if t = argMaxWindowAt x ds ks ss ps fill j then gout j else 0 := by
  have hK : 0 < prodL ks := lt_of_le_of_lt (Nat.zero_le _) ht
  unfold mpGcolBuf mpScatterUpdates
  rw [scatterAdd_map_apply]
  have step : ∀ j' ∈ allIdx (outShape Bd Cd ds ks ss ps ca),
      (if argMaxWindowAt x ds ks ss ps fill j' +
          flatIdx (outShape Bd Cd ds ks ss ps ca) j' * prodL ks =
          t + flatIdx (outShape Bd Cd ds ks ss ps ca) j * prodL ks
        then gout j' else 0) =
      (if j' = j then (if t = argMaxWindowAt x ds ks ss ps fill j then gout j else 0)
        else 0) := by
    intro j' hj'
    by_cases hjj : j' = j
    · subst hjj
      by_cases hidx : t = argMaxWindowAt x ds ks ss ps fill j'
      · simp [hidx]
      · rw [if_pos rfl, if_neg fun heq =>
          hidx ((slice_pos_inj hK (argMaxWindowAt_lt x ds ks ss ps fill j' hK) ht heq).1.symm),
          if_neg hidx]
    · rw [if_neg hjj]
      refine if_neg fun heq => ?_
      have h2 := (slice_pos_inj hK (argMaxWindowAt_lt x ds ks ss ps fill j' hK) ht heq).2
      exact hjj (flatIdx_injOn (mem_allIdx.mp hj') (mem_allIdx.mp hj) h2)
  rw [sumOver_congr step]
  exact sumOver_allIdx_if_eq _ (mem_allIdx.mp hj)

theorem mpGcol_swapped (x : List ℕ → ℤ) (ds ks ss ps : List ℕ) (fill : ℤ)
    (Bd Cd : ℕ) (ca : Bool) (gout : List ℕ → ℤ) {b c : ℕ} {oo kk : List ℕ}
    (hj : (b :: c :: oo) ∈ allIdx (outShape Bd Cd ds ks ss ps ca))
    (hkk : kk ∈ allIdx ks) :
    swapSpatialDims ks.length (mpGcolReshaped x ds ks ss ps fill Bd Cd ca gout)
        (b :: c :: (kk ++ oo)) =
      if flatIdx ks kk = argMaxWindow x ds ks ss ps fill b c oo
      then gout (b :: c :: oo) else 0 := by
  have hkLen : kk.length = ks.length := validIdx_length (mem_allIdx.mp hkk)
  have hkval := mem_allIdx.mp hkk
  have hflt : flatIdx ks kk < prodL ks := flatIdx_lt hkval
  unfold swapSpatialDims
  have e1 : (b :: c :: (kk ++ oo)).take 2 = [b, c] := rfl
  have e2 : (b :: c :: (kk ++ oo)).drop 2 = kk ++ oo := rfl
  rw [e1, e2, ← hkLen, List.drop_left, List.take_left]
  have e3 : [b, c] ++ oo ++ kk = (b :: c :: oo) ++ kk := rfl
  rw [e3]
  unfold mpGcolReshaped
  rw [flatIdx_append ks kk (mem_allIdx.mp hj), Nat.add_comm]
  rw [mpGcolBuf_slice x ds ks ss ps fill Bd Cd ca gout hj hflt]
  rfl

theorem maxPoolBackward_spec (x : List ℕ → ℤ) (ds ks ss ps : List ℕ)
    (fill : ℤ) (Bd Cd : ℕ) (ca : Bool) (gout : List ℕ → ℤ) {b c : ℕ}
    {cs : List ℕ} (hks : ∀ k ∈ ks, 0 < k) (hb : b < Bd) (hc : c < Cd) :
    maxPoolBackward x ds ks ss ps fill Bd Cd ca gout (b :: c :: cs) =
      sumOver (allIdx (outDims ds ks ss ps ca)) fun oo =>
        if sampleCoords ss ps oo
            (unflattenIdx ks (argMaxWindow x ds ks ss ps fill b c oo)) =
            cs.map Int.ofNat
        then gout (b :: c :: oo) else 0 := by
  have hK : 0 < prodL ks := prodL_pos hks
  unfold maxPoolBackward
  show (sumOver (allIdx (outDims ds ks ss ps ca)) fun oo =>
      sumOver (allIdx ks) fun kk =>
        if sampleCoords ss ps oo kk = cs.map Int.ofNat
        then swapSpatialDims ks.length
          (mpGcolReshaped x ds ks ss ps fill Bd Cd ca gout) (b :: c :: kk ++ oo)
        else 0) = _
  refine sumOver_congr fun oo hoo => ?_
  have hjmem : (b :: c :: oo) ∈ allIdx (outShape Bd Cd ds ks ss ps ca) := by
    rw [mem_allIdx]
    show (decide (b < Bd) && (decide (c < Cd) && validIdx (outDims ds ks ss ps ca) oo)) = true
    simp [hb, hc, mem_allIdx.mp hoo]
  have hidxlt : argMaxWindow x ds ks ss ps fill b c oo < prodL ks :=
    argMaxWindow_lt x ds ks ss ps fill b c oo hK
  have hkstar : validIdx ks
      (unflattenIdx ks (argMaxWindow x ds ks ss ps fill b c oo)) = true :=
    validIdx_unflattenIdx hidxlt
  have step : ∀ kk ∈ allIdx ks,
      (if sampleCoords ss ps oo kk = cs.map Int.ofNat
        then swapSpatialDims ks.length
          (mpGcolReshaped x ds ks ss ps fill Bd Cd ca gout) (b :: c :: kk ++ oo)
        else 0) =
      (if kk = unflattenIdx ks (argMaxWindow x ds ks ss ps fill b c oo)
        then (if sampleCoords ss ps oo
            (unflattenIdx ks (argMaxWindow x ds ks ss ps fill b c oo)) =
            cs.map Int.ofNat
          then gout (b :: c :: oo) else 0)
        else 0) := by
    intro kk hkk
    simp only [List.cons_append]
    rw [mpGcol_swapped x ds ks ss ps fill Bd Cd ca gout hjmem hkk]
    by_cases hkkeq : kk = unflattenIdx ks (argMaxWindow x ds ks ss ps fill b c oo)
    · subst hkkeq
      rw [flatIdx_unflattenIdx hidxlt]
      simp
    · have hfne : flatIdx ks kk ≠ argMaxWindow x ds ks ss ps fill b c oo := by
        intro hfe
        exact hkkeq (by rw [← hfe, unflattenIdx_flatIdx (mem_allIdx.mp hkk)])
      rw [if_neg hkkeq, if_neg hfne]
      simp
  rw [sumOver_congr step]
  exact sumOver_allIdx_if_eq _ hkstar

theorem coordsInBounds_toNat_valid {ds : List ℕ} {cs : List ℤ}
    (h : coordsInBounds ds cs = true) : validIdx ds (coordsToNat cs) = true := by
  induction ds generalizing cs with
  | nil =>
    cases cs with
    | nil => rfl
    | cons a t => simp [coordsInBounds] at h
  | cons d ds ih =>
    cases cs with
    | nil => simp [coordsInBounds] at h
    | cons a t =>
      simp only [coordsInBounds, Bool.and_eq_true, decide_eq_true_eq] at h
      show (decide (a.toNat < d) && validIdx ds (coordsToNat t)) = true
      simp only [Bool.and_eq_true, decide_eq_true_eq]
      exact ⟨by omega, ih h.2⟩

theorem coordsToNat_cast {ds : List ℕ} {cs : List ℤ}
    (h : coordsInBounds ds cs = true) : (coordsToNat cs).map Int.ofNat = cs := by
  induction ds generalizing cs with
  | nil =>
    cases cs with
    | nil => rfl
    | cons a t => simp [coordsInBounds] at h
  | cons d ds ih =>
    cases cs with
    | nil => simp [coordsInBounds] at h
    | cons a t =>
      simp only [coordsInBounds, Bool.and_eq_true, decide_eq_true_eq] at h
      show Int.ofNat a.toNat :: (coordsToNat t).map Int.ofNat = a :: t
      rw [ih h.2]
      congr 1
      simpa using Int.toNat_of_nonneg h.1.1

theorem outDims_length {ds ks ss ps : List ℕ} (ca : Bool)
    (h1 : ds.length = ks.length) (h2 : ss.length = ks.length)
    (h3 : ps.length = ks.length) :
    (outDims ds ks ss ps ca).length = ks.length := by
  induction ks generalizing ds ss ps with
  | nil =>
    cases ds with
    | nil =>
      cases ss with
      | nil =>
        cases ps with
        | nil => rfl
        | cons _ _ => simp at h3
      | cons _ _ => simp at h2
    | cons _ _ => simp at h1
  | cons k ks ih =>
    cases ds with
    | nil => simp at h1
    | cons d ds =>
      cases ss with
      | nil => simp at h2
      | cons s ss =>
        cases ps with
        | nil => simp at h3
        | cons p ps =>
          show (getConvOutDim d k s p ca :: outDims ds ks ss ps ca).length = ks.length + 1
          simp only [List.length_cons]
          rw [ih (by simpa using h1) (by simpa using h2) (by simpa using h3)]

/-- The window value stored at the argmax flat offset: it equals the
forward maximum, the argmax offset is the first offset attaining it, and —
whenever the window meets the input and every in-bounds value exceeds the
fill — its sampled coordinate is in bounds. -/
theorem argMax_slot (x : List ℕ → ℤ) (ds ks ss ps : List ℕ) (fill : ℤ)
    (b c : ℕ) (oo : List ℕ) (hks : ∀ k ∈ ks, 0 < k)
    (hne : ∃ kk ∈ allIdx ks, coordsInBounds ds (sampleCoords ss ps oo kk) = true)
    (hx : ∀ kk ∈ allIdx ks, coordsInBounds ds (sampleCoords ss ps oo kk) = true →
      fill < x (b :: c :: coordsToNat (sampleCoords ss ps oo kk))) :
    coordsInBounds ds (sampleCoords ss ps oo
        (unflattenIdx ks (argMaxWindow x ds ks ss ps fill b c oo))) = true ∧
    x (b :: c :: coordsToNat (sampleCoords ss ps oo
        (unflattenIdx ks (argMaxWindow x ds ks ss ps fill b c oo)))) =
      maxPoolForward x ds ks ss ps fill b c oo := by
  have hK : 0 < prodL ks := prodL_pos hks
  have hidxlt : argMaxWindow x ds ks ss ps fill b c oo < prodL ks :=
    argMaxWindow_lt x ds ks ss ps fill b c oo hK
  have hwne : windowVals x ds ks ss ps fill b c oo ≠ [] := by
    intro h0
    have := windowVals_length x ds ks ss ps fill b c oo
    rw [h0] at this
    simp at this
    omega
  have hget : (windowVals x ds ks ss ps fill b c oo).getD
      (argMaxWindow x ds ks ss ps fill b c oo) 0 =
      maxPoolForward x ds ks ss ps fill b c oo := getD_idxOfMax hwne
  have hval : im2col x ds ss ps fill b c
      (unflattenIdx ks (argMaxWindow x ds ks ss ps fill b c oo)) oo =
      maxPoolForward x ds ks ss ps fill b c oo := by
    rw [← windowVals_getD x ds ks ss ps fill b c oo hidxlt]
    exact hget
  rcases hne with ⟨kk₀, hkk₀, hin₀⟩
  have hmem₀ : im2col x ds ss ps fill b c kk₀ oo ∈
      windowVals x ds ks ss ps fill b c oo :=
    List.mem_map_of_mem _ hkk₀
  have hval₀ : im2col x ds ss ps fill b c kk₀ oo =
      x (b :: c :: coordsToNat (sampleCoords ss ps oo kk₀)) := by
    unfold im2col
    rw [if_pos hin₀]
  have hfillmax : fill < maxPoolForward x ds ks ss ps fill b c oo := by
    have hle := le_listMax hmem₀
    have hgt := hx kk₀ hkk₀ hin₀
    rw [hval₀] at hle
    exact lt_of_lt_of_le hgt hle
  by_cases hin : coordsInBounds ds (sampleCoords ss ps oo
      (unflattenIdx ks (argMaxWindow x ds ks ss ps fill b c oo))) = true
  · refine ⟨hin, ?_⟩
    rw [← hval]
    unfold im2col
    rw [if_pos hin]
  · exfalso
    have : im2col x ds ss ps fill b c
        (unflattenIdx ks (argMaxWindow x ds ks ss ps fill b c oo)) oo = fill := by
      unfold im2col
      rw [if_neg hin]
    rw [this] at hval
    omega

theorem mem_allIdx_cons2 {Bd Cd : ℕ} {ds : List ℕ} {b c : ℕ} {w : List ℕ}
    (hb : b < Bd) (hc : c < Cd) (hw : validIdx ds w = true) :
    (b :: c :: w) ∈ allIdx (Bd :: Cd :: ds) := by
  rw [mem_allIdx]
  show (decide (b < Bd) && (decide (c < Cd) && validIdx ds w)) = true
  simp [hb, hc, hw]

/-! ### Claims -/

/-- C1: for every input tensor, max-pool `Forward` window-extracts with the
dtype's lowest (or negative-infinity) fill, reduces by maximum over the
kernel axes, and at every output position of the `(batch, channel,
out_1..out_n)` output the value is the true maximum of the window's
in-bounds elements — a padded (fill) position is never the returned maximum:
the result is an upper bound of the in-bounds elements and is attained by
one of them. -/
theorem claim_C1_forward_true_max (x : List ℕ → ℤ) (ds ks ss ps : List ℕ)
    (fill : ℤ) (Bd Cd : ℕ) (ca : Bool) (b c : ℕ) (oo : List ℕ)
    (hb : b < Bd) (hc : c < Cd)
    (hoo : oo ∈ allIdx (outDims ds ks ss ps ca))
    (hne : ∃ kk ∈ allIdx ks, coordsInBounds ds (sampleCoords ss ps oo kk) = true)
    (hx : ∀ ix ∈ allIdx (Bd :: Cd :: ds), fill ≤ x ix) :
    (∀ kk ∈ allIdx ks, coordsInBounds ds (sampleCoords ss ps oo kk) = true →
      x (b :: c :: coordsToNat (sampleCoords ss ps oo kk)) ≤
        maxPoolForward x ds ks ss ps fill b c oo) ∧
    (∃ kk ∈ allIdx ks, coordsInBounds ds (sampleCoords ss ps oo kk) = true ∧
      x (b :: c :: coordsToNat (sampleCoords ss ps oo kk)) =
        maxPoolForward x ds ks ss ps fill b c oo) := by
  have hub : ∀ kk ∈ allIdx ks, coordsInBounds ds (sampleCoords ss ps oo kk) = true →
      x (b :: c :: coordsToNat (sampleCoords ss ps oo kk)) ≤
        maxPoolForward x ds ks ss ps fill b c oo := by
    intro kk hkk hin
    have hmem : im2col x ds ss ps fill b c kk oo ∈
        windowVals x ds ks ss ps fill b c oo := List.mem_map_of_mem _ hkk
    have hval : im2col x ds ss ps fill b c kk oo =
        x (b :: c :: coordsToNat (sampleCoords ss ps oo kk)) := by
      unfold im2col
      rw [if_pos hin]
    rw [← hval]
    exact le_listMax hmem
  refine ⟨hub, ?_⟩
  rcases hne with ⟨kk₀, hkk₀, hin₀⟩
  have hwne : windowVals x ds ks ss ps fill b c oo ≠ [] :=
    List.ne_nil_of_mem (List.mem_map_of_mem _ hkk₀)
  have hmaxmem := listMax_mem hwne
  rw [windowVals] at hmaxmem
  rcases List.mem_map.mp hmaxmem with ⟨kk₁, hkk₁, hv₁⟩
  by_cases hin₁ : coordsInBounds ds (sampleCoords ss ps oo kk₁) = true
  · refine ⟨kk₁, hkk₁, hin₁, ?_⟩
    have : im2col x ds ss ps fill b c kk₁ oo =
        x (b :: c :: coordsToNat (sampleCoords ss ps oo kk₁)) := by
      unfold im2col
      rw [if_pos hin₁]
    rw [← this, hv₁]
    rfl
  · refine ⟨kk₀, hkk₀, hin₀, ?_⟩
    have hfillv : im2col x ds ss ps fill b c kk₁ oo = fill := by
      unfold im2col
      rw [if_neg hin₁]
    have hmaxfill : maxPoolForward x ds ks ss ps fill b c oo = fill := by
      rw [maxPoolForward, windowVals, ← hv₁, hfillv]
    have hle := hub kk₀ hkk₀ hin₀
    have hge : fill ≤ x (b :: c :: coordsToNat (sampleCoords ss ps oo kk₀)) := by
      refine hx _ (mem_allIdx_cons2 hb hc ?_)
      exact coordsInBounds_toNat_valid hin₀
    rw [hmaxfill] at hle ⊢
    omega

/-- Witness for C1 at a concrete input: one batch, one channel, input
extent 2, kernel 2, stride 1, no padding, fill `-5`, values `0, 1`. -/
theorem claim_C1_witness :
    (∀ kk ∈ allIdx [2], coordsInBounds [2] (sampleCoords [1] [0] [0] kk) = true →
      (fun ix => ((ix.getD 2 0 : ℕ) : ℤ)) (0 :: 0 :: coordsToNat (sampleCoords [1] [0] [0] kk)) ≤
        maxPoolForward (fun ix => ((ix.getD 2 0 : ℕ) : ℤ)) [2] [2] [1] [0] (-5) 0 0 [0]) ∧
    (∃ kk ∈ allIdx [2], coordsInBounds [2] (sampleCoords [1] [0] [0] kk) = true ∧
      (fun ix => ((ix.getD 2 0 : ℕ) : ℤ)) (0 :: 0 :: coordsToNat (sampleCoords [1] [0] [0] kk)) =
        maxPoolForward (fun ix => ((ix.getD 2 0 : ℕ) : ℤ)) [2] [2] [1] [0] (-5) 0 0 [0]) :=
  claim_C1_forward_true_max (fun ix => ((ix.getD 2 0 : ℕ) : ℤ)) [2] [2] [1] [0] (-5) 1 1 false 0 0 [0]
    (by decide) (by decide) (by decide) (by decide) (by decide)

/-- C2: max-pool `Backward` computes argmax indices of the cached windowed
tensor along the kernel axes with first-occurrence tie-break matching the
forward max reduction, zero-initializes a flat buffer of size
`out_total_size * kernel_total_size`, scatter-adds `gout` at
`index + output_position * kernel_total_size`, reshapes to
`(batch, channel, out…, k…)`, permutes to `(batch, channel, k…, out…)` and
window-scatters with the cached stride/pad and input spatial shape: the
composite (the definition `maxPoolBackward`, built of exactly those steps)
routes each `gout` value to the argmax coordinate of its window. -/
theorem claim_C2_backward_pipeline (x : List ℕ → ℤ) (ds ks ss ps : List ℕ)
    (fill : ℤ) (Bd Cd : ℕ) (ca : Bool) (gout : List ℕ → ℤ) (b c : ℕ)
    (cs : List ℕ) (hks : ∀ k ∈ ks, 0 < k) (hb : b < Bd) (hc : c < Cd)
    (hcs : validIdx ds cs = true) :
    (∀ b' c' oo',
      (windowVals x ds ks ss ps fill b' c' oo').getD
          (argMaxWindow x ds ks ss ps fill b' c' oo') 0 =
        maxPoolForward x ds ks ss ps fill b' c' oo' ∧
      ∀ t < argMaxWindow x ds ks ss ps fill b' c' oo',
        (windowVals x ds ks ss ps fill b' c' oo').getD t 0 ≠
          maxPoolForward x ds ks ss ps fill b' c' oo') ∧
    maxPoolBackward x ds ks ss ps fill Bd Cd ca gout (b :: c :: cs) =
      sumOver (allIdx (outDims ds ks ss ps ca)) fun oo =>
        if sampleCoords ss ps oo
            (unflattenIdx ks (argMaxWindow x ds ks ss ps fill b c oo)) =
            cs.map Int.ofNat
        then gout (b :: c :: oo) else 0 := by
  have hK : 0 < prodL ks := prodL_pos hks
  constructor
  · intro b' c' oo'
    have hwne : windowVals x ds ks ss ps fill b' c' oo' ≠ [] := by
      intro h0
      have := windowVals_length x ds ks ss ps fill b' c' oo'
      rw [h0] at this
      simp at this
      omega
    exact ⟨getD_idxOfMax hwne, fun t ht => getD_lt_idxOfMax ht⟩
  · exact maxPoolBackward_spec x ds ks ss ps fill Bd Cd ca gout hks hb hc

/-- Witness for C2 at a concrete input: one batch, one channel, input
extent 2, kernel 2, stride 1, no padding, fill `-5`, constant `gout = 7`. -/
theorem claim_C2_witness :
    (∀ b' c' oo',
      (windowVals (fun ix => ((ix.getD 2 0 : ℕ) : ℤ)) [2] [2] [1] [0] (-5) b' c' oo').getD
          (argMaxWindow (fun ix => ((ix.getD 2 0 : ℕ) : ℤ)) [2] [2] [1] [0] (-5) b' c' oo') 0 =
        maxPoolForward (fun ix => ((ix.getD 2 0 : ℕ) : ℤ)) [2] [2] [1] [0] (-5) b' c' oo' ∧
      ∀ t < argMaxWindow (fun ix => ((ix.getD 2 0 : ℕ) : ℤ)) [2] [2] [1] [0] (-5) b' c' oo',
        (windowVals (fun ix => ((ix.getD 2 0 : ℕ) : ℤ)) [2] [2] [1] [0] (-5) b' c' oo').getD t 0 ≠
          maxPoolForward (fun ix => ((ix.getD 2 0 : ℕ) : ℤ)) [2] [2] [1] [0] (-5) b' c' oo') ∧
    maxPoolBackward (fun ix => ((ix.getD 2 0 : ℕ) : ℤ)) [2] [2] [1] [0] (-5) 1 1 false
        (fun _ => 7) (0 :: 0 :: [0]) =
      sumOver (allIdx (outDims [2] [2] [1] [0] false)) fun oo =>
        if sampleCoords [1] [0] oo
            (unflattenIdx [2] (argMaxWindow (fun ix => ((ix.getD 2 0 : ℕ) : ℤ))
              [2] [2] [1] [0] (-5) 0 0 oo)) =
            [0].map Int.ofNat
        then (fun _ => (7 : ℤ)) (0 :: 0 :: oo) else 0 :=
  claim_C2_backward_pipeline (fun ix => ((ix.getD 2 0 : ℕ) : ℤ)) [2] [2] [1] [0] (-5) 1 1
    false (fun _ => 7) 0 0 [0] (by decide) (by decide) (by decide) (by decide)

/-- C3: max-pool `DoubleBackward` window-extracts `ggx` with the forward
parameters, permutes and flattens, and gathers at the cached
`index + offset` positions, so the result at each output position equals the
window value of `ggx` at the argmax offset — and, whenever every in-bounds
input value exceeds the fill and the window meets the input, it equals
`ggx` at exactly the in-bounds coordinate selected by the corresponding
forward maximum. -/
theorem claim_C3_double_backward (x ggx : List ℕ → ℤ) (ds ks ss ps : List ℕ)
    (fill : ℤ) (Bd Cd : ℕ) (ca : Bool) (b c : ℕ) (oo : List ℕ)
    (hks : ∀ k ∈ ks, 0 < k)
    (hl1 : ds.length = ks.length) (hl2 : ss.length = ks.length)
    (hl3 : ps.length = ks.length)
    (hb : b < Bd) (hc : c < Cd) (hoo : oo ∈ allIdx (outDims ds ks ss ps ca))
    (hne : ∃ kk ∈ allIdx ks, coordsInBounds ds (sampleCoords ss ps oo kk) = true)
    (hx : ∀ ix ∈ allIdx (Bd :: Cd :: ds), fill < x ix) :
    maxPoolDoubleBackward x ggx ds ks ss ps fill Bd Cd ca (b :: c :: oo) =
      im2col ggx ds ss ps fill b c
        (unflattenIdx ks (argMaxWindow x ds ks ss ps fill b c oo)) oo ∧
    ∃ cs : List ℤ,
      cs = sampleCoords ss ps oo
        (unflattenIdx ks (argMaxWindow x ds ks ss ps fill b c oo)) ∧
      coordsInBounds ds cs = true ∧
      x (b :: c :: coordsToNat cs) = maxPoolForward x ds ks ss ps fill b c oo ∧
      maxPoolDoubleBackward x ggx ds ks ss ps fill Bd Cd ca (b :: c :: oo) =
        ggx (b :: c :: coordsToNat cs) := by
  have hK : 0 < prodL ks := prodL_pos hks
  have hidxlt : argMaxWindow x ds ks ss ps fill b c oo < prodL ks :=
    argMaxWindow_lt x ds ks ss ps fill b c oo hK
  have hooval := mem_allIdx.mp hoo
  have hoolen : oo.length = ks.length := by
    rw [validIdx_length hooval, outDims_length ca hl1 hl2 hl3]
  have hkkval : validIdx ks
      (unflattenIdx ks (argMaxWindow x ds ks ss ps fill b c oo)) = true :=
    validIdx_unflattenIdx hidxlt
  have hkklen : (unflattenIdx ks (argMaxWindow x ds ks ss ps fill b c oo)).length =
      ks.length := validIdx_length hkkval
  have hjval : validIdx (outShape Bd Cd ds ks ss ps ca) (b :: c :: oo) = true :=
    mem_allIdx.mp (mem_allIdx_cons2 hb hc hooval)
  have hstruct : maxPoolDoubleBackward x ggx ds ks ss ps fill Bd Cd ca (b :: c :: oo) =
      im2col ggx ds ss ps fill b c
        (unflattenIdx ks (argMaxWindow x ds ks ss ps fill b c oo)) oo := by
    show swapSpatialDims ks.length (im2colT ggx ds ss ps fill ks.length)
        (unflattenIdx (outShape Bd Cd ds ks ss ps ca ++ ks)
          (argMaxWindow x ds ks ss ps fill b c oo +
            flatIdx (outShape Bd Cd ds ks ss ps ca) (b :: c :: oo) * prodL ks)) = _
    rw [Nat.add_comm, unflattenIdx_mul_add ks hjval hidxlt]
    have e : (b :: c :: oo) ++
        unflattenIdx ks (argMaxWindow x ds ks ss ps fill b c oo) =
        b :: c :: (oo ++ unflattenIdx ks (argMaxWindow x ds ks ss ps fill b c oo)) := rfl
    rw [e]
    unfold swapSpatialDims
    have e1 : (b :: c :: (oo ++
        unflattenIdx ks (argMaxWindow x ds ks ss ps fill b c oo))).take 2 = [b, c] := rfl
    have e2 : (b :: c :: (oo ++
        unflattenIdx ks (argMaxWindow x ds ks ss ps fill b c oo))).drop 2 =
        oo ++ unflattenIdx ks (argMaxWindow x ds ks ss ps fill b c oo) := rfl
    rw [e1, e2, ← hoolen, List.drop_left, List.take_left]
    have e3 : [b, c] ++
        unflattenIdx ks (argMaxWindow x ds ks ss ps fill b c oo) ++ oo =
        b :: c :: (unflattenIdx ks (argMaxWindow x ds ks ss ps fill b c oo) ++ oo) := by
      simp
    rw [e3]
    show im2col ggx ds ss ps fill b c
        ((unflattenIdx ks (argMaxWindow x ds ks ss ps fill b c oo) ++ oo).take oo.length)
        ((unflattenIdx ks (argMaxWindow x ds ks ss ps fill b c oo) ++ oo).drop oo.length) = _
    have hlen2 : oo.length =
        (unflattenIdx ks (argMaxWindow x ds ks ss ps fill b c oo)).length :=
      hoolen.trans hkklen.symm
    rw [hlen2, List.take_left, List.drop_left]
  have hxloc : ∀ kk ∈ allIdx ks, coordsInBounds ds (sampleCoords ss ps oo kk) = true →
      fill < x (b :: c :: coordsToNat (sampleCoords ss ps oo kk)) := by
    intro kk hkkm hin
    exact hx _ (mem_allIdx_cons2 hb hc (coordsInBounds_toNat_valid hin))
  obtain ⟨hinb, hxeq⟩ := argMax_slot x ds ks ss ps fill b c oo hks hne hxloc
  refine ⟨hstruct, sampleCoords ss ps oo
    (unflattenIdx ks (argMaxWindow x ds ks ss ps fill b c oo)), rfl, hinb, hxeq, ?_⟩
  rw [hstruct]
  unfold im2col
  rw [if_pos hinb]

/-- Witness for C3 at a concrete input: one batch, one channel, input
extent 2, kernel 2, stride 1, no padding, fill `-5`, `ggx` reading off the
spatial coordinate plus 100. -/
theorem claim_C3_witness :
    maxPoolDoubleBackward (fun ix => ((ix.getD 2 0 : ℕ) : ℤ))
        (fun ix => 100 + ((ix.getD 2 0 : ℕ) : ℤ)) [2] [2] [1] [0] (-5) 1 1 false
        (0 :: 0 :: [0]) =
      im2col (fun ix => 100 + ((ix.getD 2 0 : ℕ) : ℤ)) [2] [1] [0] (-5) 0 0
        (unflattenIdx [2] (argMaxWindow (fun ix => ((ix.getD 2 0 : ℕ) : ℤ))
          [2] [2] [1] [0] (-5) 0 0 [0])) [0] ∧
    ∃ cs : List ℤ,
      cs = sampleCoords [1] [0] [0]
        (unflattenIdx [2] (argMaxWindow (fun ix => ((ix.getD 2 0 : ℕ) : ℤ))
          [2] [2] [1] [0] (-5) 0 0 [0])) ∧
      coordsInBounds [2] cs = true ∧
      (fun ix => ((ix.getD 2 0 : ℕ) : ℤ)) (0 :: 0 :: coordsToNat cs) =
        maxPoolForward (fun ix => ((ix.getD 2 0 : ℕ) : ℤ)) [2] [2] [1] [0] (-5) 0 0 [0] ∧
      maxPoolDoubleBackward (fun ix => ((ix.getD 2 0 : ℕ) : ℤ))
          (fun ix => 100 + ((ix.getD 2 0 : ℕ) : ℤ)) [2] [2] [1] [0] (-5) 1 1 false
          (0 :: 0 :: [0]) =
        (fun ix => 100 + ((ix.getD 2 0 : ℕ) : ℤ)) (0 :: 0 :: coordsToNat cs) :=
  claim_C3_double_backward (fun ix => ((ix.getD 2 0 : ℕ) : ℤ))
    (fun ix => 100 + ((ix.getD 2 0 : ℕ) : ℤ)) [2] [2] [1] [0] (-5) 1 1 false 0 0 [0]
    (by decide) (by decide) (by decide) (by decide) (by decide) (by decide)
    (by decide) (by decide) (by decide)

/-- C4 counterexample: on a freshly constructed instance, calling `Forward`
and then `DoubleBackward` — without an intervening `Backward` — fails (the
C++ object would use the default-constructed null `indices_` and `offset_`
arrays, which `Forward` never assigns), refuting the claim that
`DoubleBackward` succeeds after `Forward` alone using an index tensor
produced by that `Forward`. -/
theorem claim_C4_counterexample :
    instDoubleBackward
      ((instForward (MaxPoolInstance.mk0 [1] [1] [0] false) 1 1 [1] 0 fun _ => 0).2)
      (fun _ => 0) = none := rfl

/-- C4 (amended): after `Forward`, `Backward` may be invoked any number of
times, always referencing the most recent `Forward`'s cached input;
`Backward` computes and caches the index and offset tensors, and only after
a `Backward` does `DoubleBackward` succeed, gathering through the cached
index/offset of that `Backward` (which reference the most recent
`Forward`'s cache). -/
theorem claim_C4_amended (m : MaxPoolInstance) (Bd Cd : ℕ) (ds : List ℕ)
    (fill : ℤ) (x ggx gout gout2 : List ℕ → ℤ) :
    (instForward m Bd Cd ds fill x).1 =
      maxPoolForwardAt x ds m.kernelSize m.stride m.pads fill ∧
    instBackward (instForward m Bd Cd ds fill x).2 gout =
      some (maxPoolBackward x ds m.kernelSize m.stride m.pads fill Bd Cd m.coverAll gout,
        { m with xCache := some ((Bd, Cd, ds, fill), x),
                 indicesCache := some (argMaxWindowAt x ds m.kernelSize m.stride m.pads fill),
                 offsetCache := some fun j =>
                   flatIdx (outShape Bd Cd ds m.kernelSize m.stride m.pads m.coverAll) j *
                     prodL m.kernelSize }) ∧
    instDoubleBackward
        { m with xCache := some ((Bd, Cd, ds, fill), x),
                 indicesCache := some (argMaxWindowAt x ds m.kernelSize m.stride m.pads fill),
                 offsetCache := some fun j =>
                   flatIdx (outShape Bd Cd ds m.kernelSize m.stride m.pads m.coverAll) j *
                     prodL m.kernelSize } ggx =
      some (maxPoolDoubleBackward x ggx ds m.kernelSize m.stride m.pads fill Bd Cd m.coverAll) ∧
    instBackward
        { m with xCache := some ((Bd, Cd, ds, fill), x),
                 indicesCache := some (argMaxWindowAt x ds m.kernelSize m.stride m.pads fill),
                 offsetCache := some fun j =>
                   flatIdx (outShape Bd Cd ds m.kernelSize m.stride m.pads m.coverAll) j *
                     prodL m.kernelSize } gout2 =
      some (maxPoolBackward x ds m.kernelSize m.stride m.pads fill Bd Cd m.coverAll gout2,
        { m with xCache := some ((Bd, Cd, ds, fill), x),
                 indicesCache := some (argMaxWindowAt x ds m.kernelSize m.stride m.pads fill),
                 offsetCache := some fun j =>
                   flatIdx (outShape Bd Cd ds m.kernelSize m.stride m.pads m.coverAll) j *
                     prodL m.kernelSize }) :=
  ⟨rfl, rfl, rfl, rfl⟩

/-- C5: for every valid forward/backward pair whose windows tile the input
without overlap, the sum of the max-pool input gradient over the input
equals the sum of `gout`: gradient mass is conserved, with no leakage and no
double counting (stated under the conditions that every window meets the
input and every in-bounds value exceeds the fill, so no argmax falls on a
padded slot). -/
theorem claim_C5_gradient_conservation (x : List ℕ → ℤ) (ds ks ss ps : List ℕ)
    (fill : ℤ) (Bd Cd : ℕ) (ca : Bool) (gout : List ℕ → ℤ)
    (hks : ∀ k ∈ ks, 0 < k)
    (htile : ∀ oo1 ∈ allIdx (outDims ds ks ss ps ca), ∀ kk1 ∈ allIdx ks,
      ∀ oo2 ∈ allIdx (outDims ds ks ss ps ca), ∀ kk2 ∈ allIdx ks,
      sampleCoords ss ps oo1 kk1 = sampleCoords ss ps oo2 kk2 →
      coordsInBounds ds (sampleCoords ss ps oo1 kk1) = true →
      oo1 = oo2 ∧ kk1 = kk2)
    (hne : ∀ oo ∈ allIdx (outDims ds ks ss ps ca),
      ∃ kk ∈ allIdx ks, coordsInBounds ds (sampleCoords ss ps oo kk) = true)
    (hx : ∀ ix ∈ allIdx (Bd :: Cd :: ds), fill < x ix) :
    sumOver (allIdx (Bd :: Cd :: ds))
        (maxPoolBackward x ds ks ss ps fill Bd Cd ca gout) =
      sumOver (allIdx (outShape Bd Cd ds ks ss ps ca)) gout := by
  have key : ∀ b, b < Bd → ∀ c, c < Cd →
      sumOver (allIdx ds)
        (fun cs => maxPoolBackward x ds ks ss ps fill Bd Cd ca gout (b :: c :: cs)) =
      sumOver (allIdx (outDims ds ks ss ps ca)) fun oo => gout (b :: c :: oo) := by
    intro b hb c hc
    rw [sumOver_congr fun cs _ =>
      maxPoolBackward_spec x ds ks ss ps fill Bd Cd ca gout hks hb hc]
    rw [sumOver_swap]
    refine sumOver_congr fun oo hoo => ?_
    have hxloc : ∀ kk ∈ allIdx ks,
        coordsInBounds ds (sampleCoords ss ps oo kk) = true →
        fill < x (b :: c :: coordsToNat (sampleCoords ss ps oo kk)) := by
      intro kk hkkm hin
      exact hx _ (mem_allIdx_cons2 hb hc (coordsInBounds_toNat_valid hin))
    obtain ⟨hinb, _⟩ := argMax_slot x ds ks ss ps fill b c oo hks (hne oo hoo) hxloc
    have hwval : validIdx ds (coordsToNat (sampleCoords ss ps oo
        (unflattenIdx ks (argMaxWindow x ds ks ss ps fill b c oo)))) = true :=
      coordsInBounds_toNat_valid hinb
    have hcast : (coordsToNat (sampleCoords ss ps oo
        (unflattenIdx ks (argMaxWindow x ds ks ss ps fill b c oo)))).map Int.ofNat =
        sampleCoords ss ps oo
          (unflattenIdx ks (argMaxWindow x ds ks ss ps fill b c oo)) :=
      coordsToNat_cast hinb
    have hpt : ∀ cs ∈ allIdx ds,
        (if sampleCoords ss ps oo
            (unflattenIdx ks (argMaxWindow x ds ks ss ps fill b c oo)) =
            cs.map Int.ofNat
          then gout (b :: c :: oo) else 0) =
        (if cs = coordsToNat (sampleCoords ss ps oo
            (unflattenIdx ks (argMaxWindow x ds ks ss ps fill b c oo)))
          then gout (b :: c :: oo) else 0) := by
      intro cs _
      by_cases hceq : cs = coordsToNat (sampleCoords ss ps oo
          (unflattenIdx ks (argMaxWindow x ds ks ss ps fill b c oo)))
      · subst hceq
        rw [if_pos rfl, if_pos hcast.symm]
      · rw [if_neg hceq]
        refine if_neg fun heq => hceq ?_
        have h2 : (coordsToNat (sampleCoords ss ps oo
            (unflattenIdx ks (argMaxWindow x ds ks ss ps fill b c oo)))).map Int.ofNat =
            cs.map Int.ofNat := hcast.trans heq
        have hinj : Function.Injective (Int.ofNat) := fun a b hab => Int.ofNat.inj hab
        exact (List.map_injective_iff.mpr hinj h2).symm
    rw [sumOver_congr hpt]
    exact sumOver_allIdx_if_eq _ hwval
  show sumOver (allIdx (Bd :: Cd :: ds)) _ =
    sumOver (allIdx (Bd :: Cd :: outDims ds ks ss ps ca)) _
  rw [sumOver_allIdx_cons, sumOver_allIdx_cons]
  congr 1
  refine List.map_congr_left fun b hb => ?_
  rw [sumOver_allIdx_cons, sumOver_allIdx_cons]
  congr 1
  refine List.map_congr_left fun c hc => ?_
  exact key b (List.mem_range.mp hb) c (List.mem_range.mp hc)

/-- Witness for C5 at a concrete non-overlapping tiling: input extent 4,
kernel 2, stride 2, no padding — the two windows tile the input — with
`gout` reading off the output position. -/
theorem claim_C5_witness :
    sumOver (allIdx (1 :: 1 :: [4]))
        (maxPoolBackward (fun ix => ((ix.getD 2 0 : ℕ) : ℤ)) [4] [2] [2] [0] (-5) 1 1
          false (fun ix => 10 + ((ix.getD 2 0 : ℕ) : ℤ))) =
      sumOver (allIdx (outShape 1 1 [4] [2] [2] [0] false))
        (fun ix => 10 + ((ix.getD 2 0 : ℕ) : ℤ)) :=
  claim_C5_gradient_conservation (fun ix => ((ix.getD 2 0 : ℕ) : ℤ)) [4] [2] [2] [0]
    (-5) 1 1 false (fun ix => 10 + ((ix.getD 2 0 : ℕ) : ℤ))
    (by decide) (by decide) (by decide) (by decide)

/-- C10: in max-pool `Backward` every argmax index lies in
`[0, kernel_total_size)`, so each scatter-add write at
`index + output_position * kernel_total_size` falls inside that output
position's own slice of the flat buffer (and inside the buffer of size
`out_total_size * kernel_total_size`), and distinct output positions write
to distinct positions in disjoint slices. -/
theorem claim_C10_scatter_disjoint_slices (x : List ℕ → ℤ) (ds ks ss ps : List ℕ)
    (fill : ℤ) (Bd Cd : ℕ) (ca : Bool) (j j' : List ℕ)
    (hks : ∀ k ∈ ks, 0 < k)
    (hj : j ∈ allIdx (outShape Bd Cd ds ks ss ps ca))
    (hj' : j' ∈ allIdx (outShape Bd Cd ds ks ss ps ca)) (hjj : j' ≠ j) :
    argMaxWindowAt x ds ks ss ps fill j < prodL ks ∧
    flatIdx (outShape Bd Cd ds ks ss ps ca) j * prodL ks ≤
      argMaxWindowAt x ds ks ss ps fill j +
        flatIdx (outShape Bd Cd ds ks ss ps ca) j * prodL ks ∧
    argMaxWindowAt x ds ks ss ps fill j +
        flatIdx (outShape Bd Cd ds ks ss ps ca) j * prodL ks <
      (flatIdx (outShape Bd Cd ds ks ss ps ca) j + 1) * prodL ks ∧
    argMaxWindowAt x ds ks ss ps fill j +
        flatIdx (outShape Bd Cd ds ks ss ps ca) j * prodL ks <
      prodL (outShape Bd Cd ds ks ss ps ca) * prodL ks ∧
    argMaxWindowAt x ds ks ss ps fill j' +
        flatIdx (outShape Bd Cd ds ks ss ps ca) j' * prodL ks ≠
      argMaxWindowAt x ds ks ss ps fill j +
        flatIdx (outShape Bd Cd ds ks ss ps ca) j * prodL ks := by
  have hK : 0 < prodL ks := prodL_pos hks
  have h1 := argMaxWindowAt_lt x ds ks ss ps fill j hK
  have h1' := argMaxWindowAt_lt x ds ks ss ps fill j' hK
  have hfl := flatIdx_lt (mem_allIdx.mp hj)
  have e : (flatIdx (outShape Bd Cd ds ks ss ps ca) j + 1) * prodL ks =
      flatIdx (outShape Bd Cd ds ks ss ps ca) j * prodL ks + prodL ks := by ring
  refine ⟨h1, Nat.le_add_left _ _, by rw [e]; omega, ?_, ?_⟩
  · have h2 : (flatIdx (outShape Bd Cd ds ks ss ps ca) j + 1) * prodL ks ≤
        prodL (outShape Bd Cd ds ks ss ps ca) * prodL ks :=
      Nat.mul_le_mul_right _ hfl
    rw [e] at h2
    omega
  · intro heq
    obtain ⟨_, hfeq⟩ := slice_pos_inj hK h1' h1 heq
    exact hjj (flatIdx_injOn (mem_allIdx.mp hj') (mem_allIdx.mp hj) hfeq)

/-- Witness for C10 at a concrete configuration: input extent 4, kernel 2,
stride 2, no padding, two distinct output positions. -/
theorem claim_C10_witness :
    argMaxWindowAt (fun ix => ((ix.getD 2 0 : ℕ) : ℤ)) [4] [2] [2] [0] (-5) [0, 0, 1] <
      prodL [2] ∧
    flatIdx (outShape 1 1 [4] [2] [2] [0] false) [0, 0, 1] * prodL [2] ≤
      argMaxWindowAt (fun ix => ((ix.getD 2 0 : ℕ) : ℤ)) [4] [2] [2] [0] (-5) [0, 0, 1] +
        flatIdx (outShape 1 1 [4] [2] [2] [0] false) [0, 0, 1] * prodL [2] ∧
    argMaxWindowAt (fun ix => ((ix.getD 2 0 : ℕ) : ℤ)) [4] [2] [2] [0] (-5) [0, 0, 1] +
        flatIdx (outShape 1 1 [4] [2] [2] [0] false) [0, 0, 1] * prodL [2] <
      (flatIdx (outShape 1 1 [4] [2] [2] [0] false) [0, 0, 1] + 1) * prodL [2] ∧
    argMaxWindowAt (fun ix => ((ix.getD 2 0 : ℕ) : ℤ)) [4] [2] [2] [0] (-5) [0, 0, 1] +
        flatIdx (outShape 1 1 [4] [2] [2] [0] false) [0, 0, 1] * prodL [2] <
      prodL (outShape 1 1 [4] [2] [2] [0] false) * prodL [2] ∧
    argMaxWindowAt (fun ix => ((ix.getD 2 0 : ℕ) : ℤ)) [4] [2] [2] [0] (-5) [0, 0, 0] +
        flatIdx (outShape 1 1 [4] [2] [2] [0] false) [0, 0, 0] * prodL [2] ≠
      argMaxWindowAt (fun ix => ((ix.getD 2 0 : ℕ) : ℤ)) [4] [2] [2] [0] (-5) [0, 0, 1] +
        flatIdx (outShape 1 1 [4] [2] [2] [0] false) [0, 0, 1] * prodL [2] :=
  claim_C10_scatter_disjoint_slices (fun ix => ((ix.getD 2 0 : ℕ) : ℤ)) [4] [2] [2] [0]
    (-5) 1 1 false [0, 0, 1] [0, 0, 0] (by decide) (by decide) (by decide) (by decide)

/-- Zeta-reduced form of `poolingWidth` (the source's clamped
`end - start`). -/
theorem poolingWidth_eq (d k s p i : ℕ) :
    poolingWidth d k s p i =
      (if (i : ℚ) * s - p + k > d then (d : ℚ) else (i : ℚ) * s - p + k) -
      (if (i : ℚ) * s - p < 0 then 0 else (i : ℚ) * s - p) := rfl

/-- C6 counterexample: with input extent 1, kernel 1, stride 1 and pad 2,
output position 0 is valid (the axis has 5 output positions) yet its
effective width is `-1` — negative — refuting the claim that the width is
never negative at valid output positions; the claim holds only when
`pad ≤ kernel_size`. -/
theorem claim_C6_counterexample :
    poolingWidth 1 1 1 2 0 = -1 ∧ 0 < getConvOutDim 1 1 1 2 false := by
  constructor
  · simp only [poolingWidth]
    push_cast
    norm_num
  · decide

set_option maxHeartbeats 1000000 in
/-- C6 (amended): in ignore-mode average pooling, for each axis and each
valid output position the effective width equals
`clamp(i*stride - pad + kernel, 0, dim) - clamp(i*stride - pad, 0, dim)`
(the min/max form of the source's clamps); it is nonnegative whenever
`pad ≤ kernel_size` (not in general: see the counterexample), positive
whenever `pad < kernel_size`, zero only if the entire window falls outside
the input; and the per-axis widths are combined across axes by successive
outer products into the N-D effective-size tensor used as the per-position
denominator of the ignore-mode forward. -/
theorem claim_C6_effective_widths (d k s p i : ℕ) (ds2 ks2 ss2 ps2 is2 : List ℕ)
    (hs : 0 < s) (hi : i < getConvOutDim d k s p false) :
    poolingWidth d k s p i =
      min ((i : ℚ) * s - p + k) d - max ((i : ℚ) * s - p) 0 ∧
    (p ≤ k → 0 ≤ poolingWidth d k s p i) ∧
    (p < k → 0 < d → 0 < poolingWidth d k s p i) ∧
    (0 < d → 0 < k → poolingWidth d k s p i = 0 →
      ((d : ℚ) ≤ (i : ℚ) * s - p ∨ (i : ℚ) * s - p + k ≤ 0)) ∧
    padModeIgnoreWidths (d :: ds2) (k :: ks2) (s :: ss2) (p :: ps2) (i :: is2) =
      poolingWidth d k s p i * padModeIgnoreWidths ds2 ks2 ss2 ps2 is2 ∧
    (∀ (x g : List ℕ → ℚ) (b c : ℕ) (oo : List ℕ),
      avgPoolForward x ds2 ks2 ss2 ps2 padModeIgnore = Except.ok g →
      g (b :: c :: oo) =
        (windowVals x ds2 ks2 ss2 ps2 0 b c oo).sum /
          padModeIgnoreWidths ds2 ks2 ss2 ps2 oo) := by
  have hcod : getConvOutDim d k s p false = (d + 2 * p - k) / s + 1 := by
    simp [getConvOutDim]
  have hile : i ≤ (d + 2 * p - k) / s := by omega
  have hmul : i * s ≤ d + 2 * p - k :=
    le_trans (Nat.mul_le_mul_right s hile) (Nat.div_mul_le_self _ _)
  have hcases : i * s + k ≤ d + 2 * p ∨ i * s = 0 := by omega
  have hq : (i : ℚ) * s + k ≤ (d : ℚ) + 2 * p ∨ (i : ℚ) * s = 0 := by
    rcases hcases with h | h
    · left
      have h2 : ((i * s + k : ℕ) : ℚ) ≤ ((d + 2 * p : ℕ) : ℚ) := by exact_mod_cast h
      push_cast at h2
      linarith
    · right
      have h2 : ((i * s : ℕ) : ℚ) = ((0 : ℕ) : ℚ) := by exact_mod_cast h
      push_cast at h2
      linarith
  have hk0 : (0 : ℚ) ≤ k := by positivity
  have hd0 : (0 : ℚ) ≤ d := by positivity
  have hp0 : (0 : ℚ) ≤ p := by positivity
  have hi0 : (0 : ℚ) ≤ (i : ℚ) * s := by positivity
  refine ⟨?_, ?_, ?_, ?_, rfl, ?_⟩
  · rw [poolingWidth_eq]
    split_ifs with h1 h2 h2 <;> rw [min_def, max_def] <;> split_ifs <;> linarith
  · intro hpk
    have hpkq : (p : ℚ) ≤ k := by exact_mod_cast hpk
    rw [poolingWidth_eq]
    split_ifs with h1 h2 h2 <;> rcases hq with h | h <;> linarith
  · intro hpk hd
    have hpkq : (p : ℚ) < k := by exact_mod_cast hpk
    have hdq : (0 : ℚ) < d := by exact_mod_cast hd
    rw [poolingWidth_eq]
    split_ifs with h1 h2 h2 <;> rcases hq with h | h <;> linarith
  · intro hd hk h0
    have hdq : (0 : ℚ) < d := by exact_mod_cast hd
    have hkq : (0 : ℚ) < k := by exact_mod_cast hk
    rw [poolingWidth_eq] at h0
    split_ifs at h0 with h1 h2 h2
    all_goals first
      | (left; linarith) | (right; linarith)
  · intro x g b c oo hok
    have hfun : avgPoolForward x ds2 ks2 ss2 ps2 padModeIgnore = Except.ok fun j =>
        match j with
        | b' :: c' :: oo' =>
          (windowVals x ds2 ks2 ss2 ps2 (0 : ℚ) b' c' oo').sum /
            padModeIgnoreWidths ds2 ks2 ss2 ps2 oo'
        | _ => 0 := rfl
    rw [hfun] at hok
    cases hok
    rfl

/-- Witness for C6 (amended) at a concrete configuration: axis extent 4,
kernel 2, stride 2, pad 1, output position 0; one further axis for the
outer-product conjunct. -/
theorem claim_C6_witness :
    poolingWidth 4 2 2 1 0 =
      min ((0 : ℚ) * 2 - 1 + 2) 4 - max ((0 : ℚ) * 2 - 1) 0 ∧
    (1 ≤ 2 → 0 ≤ poolingWidth 4 2 2 1 0) ∧
    (1 < 2 → 0 < 4 → 0 < poolingWidth 4 2 2 1 0) ∧
    (0 < 4 → 0 < 2 → poolingWidth 4 2 2 1 0 = 0 →
      ((4 : ℚ) ≤ (0 : ℚ) * 2 - 1 ∨ (0 : ℚ) * 2 - 1 + 2 ≤ 0)) ∧
    padModeIgnoreWidths (4 :: [4]) (2 :: [2]) (2 :: [2]) (1 :: [1]) (0 :: [0]) =
      poolingWidth 4 2 2 1 0 * padModeIgnoreWidths [4] [2] [2] [1] [0] ∧
    (∀ (x g : List ℕ → ℚ) (b c : ℕ) (oo : List ℕ),
      avgPoolForward x [4] [2] [2] [1] padModeIgnore = Except.ok g →
      g (b :: c :: oo) =
        (windowVals x [4] [2] [2] [1] 0 b c oo).sum /
          padModeIgnoreWidths [4] [2] [2] [1] oo) :=
  claim_C6_effective_widths 4 2 2 1 0 [4] [2] [2] [1] [0] (by decide) (by decide)

/-- C7: in zero-mode average pooling, `Forward` window-extracts with fill 0
and `cover_all = false`, and every output position equals the window sum
divided by the nominal kernel volume `k_1 * ... * k_n` — the same
denominator for every position, and equal to the number of summed window
entries (so zero-filled padded slots dilute the mean). -/
theorem claim_C7_avg_zero_mode (x : List ℕ → ℚ) (ds ks ss ps : List ℕ) :
    ∃ f, avgPoolForward x ds ks ss ps padModeZero = Except.ok f ∧
      ∀ (b c : ℕ) (oo : List ℕ), oo ∈ allIdx (outDims ds ks ss ps false) →
        f (b :: c :: oo) =
          (windowVals x ds ks ss ps (0 : ℚ) b c oo).sum / (prodL ks : ℚ) ∧
        (windowVals x ds ks ss ps (0 : ℚ) b c oo).length = prodL ks := by
  refine ⟨_, rfl, ?_⟩
  intro b c oo _
  exact ⟨rfl, windowVals_length x ds ks ss ps 0 b c oo⟩

/-- Witness for C7 at a concrete configuration: input extent 4, kernel 2,
stride 2, no padding. -/
theorem claim_C7_witness :
    ∃ f, avgPoolForward (fun ix => ((ix.getD 2 0 : ℕ) : ℚ)) [4] [2] [2] [0]
        padModeZero = Except.ok f ∧
      ∀ (b c : ℕ) (oo : List ℕ), oo ∈ allIdx (outDims [4] [2] [2] [0] false) →
        f (b :: c :: oo) =
          (windowVals (fun ix => ((ix.getD 2 0 : ℕ) : ℚ)) [4] [2] [2] [0]
            (0 : ℚ) b c oo).sum / (prodL [2] : ℚ) ∧
        (windowVals (fun ix => ((ix.getD 2 0 : ℕ) : ℚ)) [4] [2] [2] [0]
          (0 : ℚ) b c oo).length = prodL [2] :=
  claim_C7_avg_zero_mode (fun ix => ((ix.getD 2 0 : ℕ) : ℚ)) [4] [2] [2] [0]

/-- C8: calling `Backward` on an average-pool instance raises the distinct
not-implemented error condition and never returns a tensor; the instance
(whose members are all const) is left unchanged, there being no successful
transition at all. -/
theorem claim_C8_avg_backward_not_implemented (m : AveragePoolInstance)
    (gout : List ℕ → ℚ) :
    instAvgBackward m gout = Except.error PoolError.notImplemented ∧
    ∀ r, instAvgBackward m gout ≠ Except.ok r :=
  ⟨rfl, fun r h => Except.noConfusion h⟩

/-- Witness for C8 on a concrete instance and gradient. -/
theorem claim_C8_witness :
    instAvgBackward ⟨[2], [2], [0], 0⟩ (fun _ => (0 : ℚ)) =
      Except.error PoolError.notImplemented ∧
    ∀ r, instAvgBackward ⟨[2], [2], [0], 0⟩ (fun _ => (0 : ℚ)) ≠ Except.ok r :=
  claim_C8_avg_backward_not_implemented ⟨[2], [2], [0], 0⟩ (fun _ => (0 : ℚ))

/-- C9: average-pool `Forward` on an unrecognized padding-mode value raises
the fatal invariant-violated (never-reach) condition rather than silently
defaulting; for the two recognized modes that fatal branch is
unreachable. -/
theorem claim_C9_avg_unrecognized_mode (x : List ℕ → ℚ) (ds ks ss ps : List ℕ)
    (mode : ℕ) :
    (mode ≠ padModeZero → mode ≠ padModeIgnore →
      avgPoolForward x ds ks ss ps mode = Except.error PoolError.neverReached) ∧
    (mode = padModeZero ∨ mode = padModeIgnore →
      avgPoolForward x ds ks ss ps mode ≠ Except.error PoolError.neverReached) := by
  constructor
  · intro h0 h1
    match mode, h0, h1 with
    | 0, h0, _ => exact absurd rfl h0
    | 1, _, h1 => exact absurd rfl h1
    | n + 2, _, _ => rfl
  · rintro (rfl | rfl) h
    · exact Except.noConfusion h
    · exact Except.noConfusion h

/-- Witness for C9: padding-mode value 5 hits the fatal branch, and the
recognized zero mode does not. -/
theorem claim_C9_witness :
    avgPoolForward (fun _ => (0 : ℚ)) [4] [2] [2] [0] 5 =
      Except.error PoolError.neverReached ∧
    avgPoolForward (fun _ => (0 : ℚ)) [4] [2] [2] [0] padModeZero ≠
      Except.error PoolError.neverReached :=
  ⟨(claim_C9_avg_unrecognized_mode (fun _ => (0 : ℚ)) [4] [2] [2] [0] 5).1
      (by decide) (by decide),
    (claim_C9_avg_unrecognized_mode (fun _ => (0 : ℚ)) [4] [2] [2] [0]
      padModeZero).2 (Or.inl rfl)⟩

end PoolSpec
